import Mathlib

/-!
Verification development for the log-evaluation core of a mobility-simulation
post-processing tool (`eval/` package: `filter.py`, `series.py`,
`delivery_matrix.py`, `encounters.py`, `average.py`).

The Python source is shallowly embedded:

* Log lines are lists of tokens.  A token (`Tok`) carries the raw field string
  together with the result of Python's `float()` on it (`none` when `float()`
  would raise `ValueError`); decimal-literal parsing itself is orthogonal to
  the algorithms under study and is therefore carried as data.
* Python floats are modelled as rationals (exact arithmetic).
* Fallible code returns `Except PyErr`; `PyErr` names the Python exception
  class that would propagate (`ZeroDivisionError`, `TypeError`, `IndexError`,
  `ValueError`).
* Generators over files become functions on lists; writing a line to the
  output file becomes consing a sample onto the result list.  Partial output
  written before an uncaught exception is not modelled: an aborting run is
  just `.error e`.
* The streaming loops additionally record, at every emitted sample, a snapshot
  of their internal state (`Emission`), so that theorems can speak about the
  running counters; the actual file output is the projection to `(x, ratio)`.
-/

/-- A whitespace-delimited log field: the raw string and its `float()` parse
(`none` when Python's `float()` raises `ValueError`). -/
structure Tok where
  str : String
  val : Option ℚ
deriving DecidableEq, Repr

/-- The Python exception that terminates an aborting run. -/
inductive PyErr where
  | zeroDiv
  | typeErr
  | indexErr
  | valueErr
deriving DecidableEq, Repr

/-- `row[i]` on a field list: `IndexError` when out of range. -/
def getTok (row : List Tok) (i : ℕ) : Except PyErr Tok :=
  match row.get? i with
  | some t => .ok t
  | none => .error .indexErr

/-- `float(token)`: the parsed value, or `ValueError`. -/
def pyFloat (t : Tok) : Except PyErr ℚ :=
  match t.val with
  | some q => .ok q
  | none => .error .valueErr

/-! ### `filter.py` -/

/-- Python `line.startswith(pre)`. -/
def pyStartsWith (line pre : String) : Bool :=
  pre.data.isPrefixOf line.data

/-- Python `str.split()` (no argument): split on runs of whitespace,
discarding empty fields.  Auxiliary recursion carrying the current field in
reverse. -/
def pySplitAux : List Char → List Char → List String
  | [], [] => []
  | [], cur => [String.mk cur.reverse]
  | c :: rest, cur =>
    if c.isWhitespace then
      match cur with
      | [] => pySplitAux rest []
      | _ => String.mk cur.reverse :: pySplitAux rest []
    else pySplitAux rest (c :: cur)

/-- Python `line.split()`. -/
def pySplit (line : String) : List String :=
  pySplitAux line.data []

/-- `filter.filtered_comments_reader`: drop every line that starts with the
comment marker (default `'#'`), keep the rest in file order. -/
def filtered_comments_reader (lines : List String) (comment : String := "#") :
    List String :=
  lines.filter (fun line => !pyStartsWith line comment)

/-- `filter.filtered_split_reader`: comment-filtered lines, split on
whitespace.  The `prefixes` parameter is accepted and ignored, as in the
source. -/
def filtered_split_reader (lines : List String)
    (prefixes : List (List String) := []) : List (List String) :=
  (filtered_comments_reader lines).map pySplit

/-! ### `encounters.py`

Rows of the encounters report are `(node_id, total_encounters,
unique_encounters)` triples of Python ints (the source unpacks exactly three
whitespace-separated fields and applies `int()`); the dict is embedded as an
association list in insertion order with unique keys, mirroring a Python
dict. -/

/-- Python `d[k]` lookup (as an option). -/
def alistGet? {α β : Type} [DecidableEq α] (d : List (α × β)) (k : α) :
    Option β :=
  (d.find? (fun p => decide (p.1 = k))).map (fun p => p.2)

/-- Python `d[k] = v`: update in place if present, else append. -/
def alistSet {α β : Type} [DecidableEq α] (d : List (α × β)) (k : α) (v : β) :
    List (α × β) :=
  if (alistGet? d k).isSome then
    d.map (fun p => if p.1 = k then (k, v) else p)
  else d ++ [(k, v)]

/-- `encounters.read_unique_encounters` on parsed rows
`(node, encounters, unique_encounters)`.  Mirrors the source exactly,
including the seeding of key `node` with `0` when `node` is not yet a key. -/
def read_unique_encounters (rows : List (ℤ × ℤ × ℤ)) : List (ℤ × ℤ) :=
  rows.foldl
    (fun d r =>
      let d1 := if (alistGet? d r.1).isSome then d else alistSet d r.1 0
      alistSet d1 r.2.2 ((alistGet? d1 r.2.2).getD 0 + 1))
    []

/-- `encounters.write_unique_encounters`: one `(key, value)` line per key, in
ascending key order. -/
def write_unique_encounters (d : List (ℤ × ℤ)) : List (ℤ × ℤ) :=
  (List.insertionSort (fun a b : ℤ => a ≤ b) (d.map (fun p => p.1))).map
    (fun k => (k, (alistGet? d k).getD 0))

/-! ### `series.py`, parsing layer

`generate_running_delivery` reads only `float(fields[0])`;
`generate_running_delivery_ttl` reads `float(fields[0])`,
`float(fields[5]) * 60` (TTL in minutes) and `fields[1]` (message id). -/

/-- A creation event as consumed by the TTL-aware streamer. -/
structure CEvent where
  t : ℚ
  id : String
  ttlMin : ℚ
deriving DecidableEq, Repr

/-- A delivery event as consumed by the TTL-aware streamer. -/
structure DEvent where
  t : ℚ
  id : String
deriving DecidableEq, Repr

/-- Queue expiry timestamp of a creation: `timestamp + ttl_minutes * 60`. -/
def CEvent.expiry (e : CEvent) : ℚ := e.t + e.ttlMin * 60

/-- Parse a creation-log row for the TTL streamer, in the source's field
access order: `float(row[0])`, `float(row[5]) * 60`, `row[1]`. -/
def parseCreated (row : List Tok) : Except PyErr CEvent := do
  let t ← pyFloat (← getTok row 0)
  let ttl ← pyFloat (← getTok row 5)
  let idt ← getTok row 1
  .ok ⟨t, idt.str, ttl⟩

/-- Parse a delivery-log row for the TTL streamer: `float(row[0])`,
`row[1]`. -/
def parseDelivered (row : List Tok) : Except PyErr DEvent := do
  let t ← pyFloat (← getTok row 0)
  let idt ← getTok row 1
  .ok ⟨t, idt.str⟩

/-! ### `series.py`, resampling grid

Both streamers share the forward-fill loop
`while last_write + fixedres < current_time: last_write += fixedres; ...`.
`gridPts res lw curT` is the list of successive `last_write` values taken in
that loop.  For `res ≤ 0` the Python loop would never terminate; the model
returns `[]` in that (never-exercised) case and all grid theorems assume
`0 < res`. -/

def gridPts (res lw curT : ℚ) : List ℚ :=
  if h : 0 < res ∧ lw + res < curT then (lw + res) :: gridPts res (lw + res) curT
  else []
termination_by (Int.ceil ((curT - lw) / res)).toNat
decreasing_by
  have hres : 0 < res := h.1
  have hlt : lw + res < curT := h.2
  have h1 : (1 : ℚ) < (curT - lw) / res := by
    rw [lt_div_iff hres]
    linarith
  have hceil : (1 : ℤ) < Int.ceil ((curT - lw) / res) := by
    exact_mod_cast Int.lt_ceil.mpr (by exact_mod_cast h1)
  have hsub : (curT - (lw + res)) / res = (curT - lw) / res - 1 := by
    field_simp
    ring
  have hstep : Int.ceil ((curT - (lw + res)) / res)
      = Int.ceil ((curT - lw) / res) - 1 := by
    rw [hsub, Int.ceil_sub_one]
  simp only [hstep]
  omega

/-! ### `series.py`, TTL-aware streamer -/

/-- Mutable state of `generate_running_delivery_ttl`:
`created`/`delivered` counters (Python ints, so `ℤ`), the pending-expiry FIFO
`created_list` (front first), the `delivered_ids` set (as a duplicate-free
list), and `last_write`. -/
structure TtlSt where
  created : ℤ
  delivered : ℤ
  queue : List (ℚ × String)
  dIds : List String
  lastWrite : ℚ
deriving DecidableEq, Repr

/-- One output line of a streamer together with a snapshot of the state that
produced it: the written abscissa `x`, the written ratio, the state after the
expiry pops, and the two remaining (unread-except-lookahead) cursors. -/
structure Emission where
  x : ℚ
  ratio : ℚ
  st : TtlSt
  remC : List CEvent
  remD : List DEvent
deriving DecidableEq, Repr

/-- `float(delivered) / created` under `try/except ZeroDivisionError`:
`0` when `created = 0`. -/
def ratioOf (d c : ℤ) : ℚ :=
  if c = 0 then 0 else (d : ℚ) / (c : ℚ)

/-- The pop loop
`while len(created_list) > 0 and created_list[0][0] < b: ...`:
drop expired entries from the queue front, decrementing `created` for each,
and `delivered` as well when the popped id is in `delivered_ids`.
Returns the new queue and counters. -/
def popExpired (b : ℚ) (dIds : List String) :
    List (ℚ × String) → ℤ → ℤ → List (ℚ × String) × ℤ × ℤ
  | [], c, d => ([], c, d)
  | (e, i) :: rest, c, d =>
    if e < b then
      popExpired b dIds rest (c - 1) (if i ∈ dIds then d - 1 else d)
    else ((e, i) :: rest, c, d)

/-- Grid emission of the TTL streamer: at each grid point, pop entries that
expired strictly before it, then write the recomputed ratio. -/
def ttlGrid (remC : List CEvent) (remD : List DEvent) :
    List ℚ → TtlSt → List Emission × TtlSt
  | [], st => ([], st)
  | p :: ps, st =>
    let r := popExpired p st.dIds st.queue st.created st.delivered
    let st' : TtlSt :=
      { st with queue := r.1, created := r.2.1, delivered := r.2.2,
                lastWrite := p }
    let rest := ttlGrid remC remD ps st'
    (⟨p, ratioOf r.2.2 r.2.1, st', remC, remD⟩ :: rest.1, rest.2)

/-- The emission step of one TTL loop iteration at `current_time = curT`:
unresampled (`res = none`) pops at `curT` and writes one sample; resampled
walks the grid. -/
def ttlEmit (res : Option ℚ) (curT : ℚ) (remC : List CEvent)
    (remD : List DEvent) (st : TtlSt) : List Emission × TtlSt :=
  match res with
  | none =>
    let r := popExpired curT st.dIds st.queue st.created st.delivered
    let st' : TtlSt :=
      { st with queue := r.1, created := r.2.1, delivered := r.2.2 }
    ([⟨curT, ratioOf r.2.2 r.2.1, st', remC, remD⟩], st')
  | some fr => ttlGrid remC remD (gridPts fr st.lastWrite curT) st

/-- After advancing the creation cursor, the source reads the next creation
event and appends its `(expiry, id)` entry to the queue (inside the `try`);
on `StopIteration` nothing is appended. -/
def pushC (st : TtlSt) : List CEvent → TtlSt
  | [] => st
  | e :: _ => { st with queue := st.queue ++ [(e.expiry, e.id)] }

/-- After advancing the delivery cursor, the source reads the next delivery
event and adds its id to the `delivered_ids` set. -/
def pushD (st : TtlSt) : List DEvent → TtlSt
  | [] => st
  | d :: _ =>
    if d.id ∈ st.dIds then st else { st with dIds := st.dIds ++ [d.id] }

/-- Main loop of `generate_running_delivery_ttl`.  The cursor head is the
already-read lookahead event: its queue entry / id is already in the state.
The cursor with the not-greater timestamp advances (ties advance the creation
cursor); `current_time` is the minimum of the head timestamps. -/
def ttlLoop (res : Option ℚ) :
    List CEvent → List DEvent → TtlSt → List Emission
  | [], [], _ => []
  | c :: cs, [], st =>
    let st1 := pushC { st with created := st.created + 1 } cs
    let r := ttlEmit res c.t cs [] st1
    r.1 ++ ttlLoop res cs [] r.2
  | [], d :: ds, st =>
    let st1 := pushD { st with delivered := st.delivered + 1 } ds
    let r := ttlEmit res d.t [] ds st1
    r.1 ++ ttlLoop res [] ds r.2
  | c :: cs, d :: ds, st =>
    if c.t ≤ d.t then
      let st1 := pushC { st with created := st.created + 1 } cs
      let r := ttlEmit res (min c.t d.t) cs (d :: ds) st1
      r.1 ++ ttlLoop res cs (d :: ds) r.2
    else
      let st1 := pushD { st with delivered := st.delivered + 1 } ds
      let r := ttlEmit res (min c.t d.t) (c :: cs) ds st1
      r.1 ++ ttlLoop res (c :: cs) ds r.2
termination_by cs ds _ => cs.length + ds.length
decreasing_by all_goals simp_arith

/-- Initial state: the first event of each log is read before the loop; its
queue entry / id is recorded, the counters start at `0`, `last_write = 0`. -/
def ttlInit (cs : List CEvent) (ds : List DEvent) : TtlSt :=
  { created := 0, delivered := 0,
    queue := match cs with | [] => [] | e :: _ => [(e.expiry, e.id)],
    dIds := match ds with | [] => [] | d :: _ => [d.id],
    lastWrite := 0 }

/-- The full emission trace of `generate_running_delivery_ttl` on parsed
event lists. -/
def ttlTrace (res : Option ℚ) (cs : List CEvent) (ds : List DEvent) :
    List Emission :=
  ttlLoop res cs ds (ttlInit cs ds)

/-- `series.generate_running_delivery_ttl`: parse both logs, run the loop,
project each emission to its written `(x, ratio)` line. -/
def generate_running_delivery_ttl (createdRows deliveredRows : List (List Tok))
    (res : Option ℚ) : Except PyErr (List (ℚ × ℚ)) := do
  let cs ← createdRows.mapM parseCreated
  let ds ← deliveredRows.mapM parseDelivered
  .ok ((ttlTrace res cs ds).map (fun em => (em.x, em.ratio)))

/-! ### `series.py`, simple streamer -/

/-- `float(delivered) / created` with no guard: `ZeroDivisionError`
propagates when `created = 0`. -/
def simpleRatio (d c : ℕ) : Except PyErr ℚ :=
  if c = 0 then .error .zeroDiv else .ok ((d : ℚ) / (c : ℚ))

/-- Emission step of `generate_running_delivery`: one `(curT, ratio)` line
unresampled, else one line per grid point; returns the new `last_write`. -/
def simpleEmit (res : Option ℚ) (curT ratio lw : ℚ) : List (ℚ × ℚ) × ℚ :=
  match res with
  | none => ([(curT, ratio)], lw)
  | some fr =>
    let ps := gridPts fr lw curT
    (ps.map (fun p => (p, ratio)), ps.getLast?.getD lw)

/-- Main loop of `generate_running_delivery` over the timestamp streams
(`float(fields[0])` of each log), carrying the two counters and
`last_write`.  The division has no zero guard, so the whole run aborts with
`ZeroDivisionError` when it happens with `created = 0`. -/
def simpleLoop (res : Option ℚ) :
    List ℚ → List ℚ → ℕ → ℕ → ℚ → Except PyErr (List (ℚ × ℚ))
  | [], [], _, _, _ => .ok []
  | ct :: cs, [], c, d, lw => do
    let ratio ← simpleRatio d (c + 1)
    let e := simpleEmit res ct ratio lw
    let rest ← simpleLoop res cs [] (c + 1) d e.2
    .ok (e.1 ++ rest)
  | [], dt :: ds, c, d, lw => do
    let ratio ← simpleRatio (d + 1) c
    let e := simpleEmit res dt ratio lw
    let rest ← simpleLoop res [] ds c (d + 1) e.2
    .ok (e.1 ++ rest)
  | ct :: cs, dt :: ds, c, d, lw =>
    if ct ≤ dt then do
      let ratio ← simpleRatio d (c + 1)
      let e := simpleEmit res (min ct dt) ratio lw
      let rest ← simpleLoop res cs (dt :: ds) (c + 1) d e.2
      .ok (e.1 ++ rest)
    else do
      let ratio ← simpleRatio (d + 1) c
      let e := simpleEmit res (min ct dt) ratio lw
      let rest ← simpleLoop res (ct :: cs) ds c (d + 1) e.2
      .ok (e.1 ++ rest)
termination_by cs ds _ _ _ => cs.length + ds.length
decreasing_by all_goals simp_arith

/-- `series.generate_running_delivery`: parse the timestamp column of both
logs and run the unguarded merge loop. -/
def generate_running_delivery (createdRows deliveredRows : List (List Tok))
    (res : Option ℚ) : Except PyErr (List (ℚ × ℚ)) := do
  let cs ← createdRows.mapM (fun r => do pyFloat (← getTok r 0))
  let ds ← deliveredRows.mapM (fun r => do pyFloat (← getTok r 0))
  simpleLoop res cs ds 0 0 0

/-! ### `average.py`

A report line is a list of tokens (`Row`); an accumulator / output cell is
either a number or a raw string passed through unmodified
(`Cell := ℚ ⊕ String`).  `str()` formatting of the written numbers is not
modelled: the output is compared at parsed-value level. -/

abbrev Row := List Tok

abbrev Cell := ℚ ⊕ String

/-- `average.try_divide`: `n / d`; `TypeError` (string divided by the int
active count) is caught and `n` returned unchanged. -/
def try_divide (n : Cell) (d : ℕ) : Cell :=
  match n with
  | .inl q => .inl (q / (d : ℚ))
  | .inr s => .inr s

/-- One `accum[i] += float(fields[i])` step: on `ValueError` the raw field
replaces the accumulator (with a diagnostic only while `warncount > 0`,
which is then zeroed); on success a string accumulator plus a float raises
an uncaught `TypeError`.  Returns `(cell, warncount, diagnostics)`. -/
def accumField (w : ℕ) (acc : Cell) (t : Tok) : Except PyErr (Cell × ℕ × ℕ) :=
  match t.val with
  | none => .ok (.inr t.str, 0, if 0 < w then 1 else 0)
  | some q =>
    match acc with
    | .inl a => .ok (.inl (a + q), w, 0)
    | .inr _ => .error .typeErr

/-- The `for i in range(cols)` loop over one file's fields: pointwise
`accumField` on the first `cols` fields; indexing `accum[i]` past the
accumulator's length is an `IndexError`. -/
def accumCells (w : ℕ) :
    List Cell → List Tok → Except PyErr (List Cell × ℕ × ℕ)
  | acc, [] => .ok (acc, w, 0)
  | [], _ :: _ => .error .indexErr
  | a :: acs, t :: ts => do
    let r1 ← accumField w a t
    let r2 ← accumCells r1.2.1 acs ts
    .ok (r1.1 :: r2.1, r2.2.1, r1.2.2 + r2.2.2)

/-- `cols`: the column count contributed by one line, capped by `maxcols`. -/
def colsOf (maxcols : Option ℕ) (row : Row) : ℕ :=
  match maxcols with
  | none => row.length
  | some m => min row.length m

/-- `accum` initialisation: zeros sized by the first active line's column
count, or the accumulator handed down from an earlier cursor of the round. -/
def accInit (maxcols : Option ℕ) (acc : Option (List Cell)) (row : Row) :
    List Cell :=
  match acc with
  | none => List.replicate (colsOf maxcols row) (Sum.inl (0 : ℚ))
  | some a => a

/-- Result of one round of `average_vals` over all cursors. -/
structure RoundRes where
  acc : Option (List Cell)
  active : ℕ
  warn : ℕ
  diag : ℕ
  rem : List (List Row)
deriving DecidableEq

/-- One round of `average_vals`: read the next line from every cursor
(`StopIteration` on an exhausted cursor decrements `active`), fold each read
line into the shared accumulator (created at the first active cursor with
that cursor's column count). -/
def avgRound (maxcols : Option ℕ) :
    List (List Row) → Option (List Cell) → ℕ → ℕ → Except PyErr RoundRes
  | [], acc, act, w => .ok ⟨acc, act, w, 0, []⟩
  | [] :: fs, acc, act, w => do
    let r ← avgRound maxcols fs acc (act - 1) w
    .ok ⟨r.acc, r.active, r.warn, r.diag, [] :: r.rem⟩
  | (row :: rest) :: fs, acc, act, w => do
    let rcd ← accumCells w (accInit maxcols acc row)
      (row.take (colsOf maxcols row))
    let r ← avgRound maxcols fs (some rcd.1) act rcd.2.1
    .ok ⟨r.acc, r.active, r.warn, rcd.2.2 + r.diag, rest :: r.rem⟩

/-- The remaining cursors after a round are the tails of the nonempty ones
(exhausted cursors stay, contributing nothing further). -/
theorem avgRound_rem (maxcols : Option ℕ) :
    ∀ (fs : List (List Row)) (acc : Option (List Cell)) (act w : ℕ)
      (r : RoundRes), avgRound maxcols fs acc act w = .ok r →
      r.rem = fs.map List.tail := by
  intro fs
  induction fs with
  | nil =>
    intro acc act w r h
    simp only [avgRound] at h
    cases h
    rfl
  | cons f fs ih =>
    intro acc act w r h
    match f with
    | [] =>
      cases hrec : avgRound maxcols fs acc (act - 1) w with
      | error e =>
        simp only [avgRound, hrec, bind, Except.bind] at h
        exact Except.noConfusion h
      | ok rr =>
        simp only [avgRound, hrec, bind, Except.bind, Except.ok.injEq] at h
        subst h
        simp [ih _ _ _ _ hrec]
    | row :: rest =>
      cases hacc : accumCells w (accInit maxcols acc row)
          (row.take (colsOf maxcols row)) with
      | error e =>
        simp only [avgRound, hacc, bind, Except.bind] at h
        exact Except.noConfusion h
      | ok rcd =>
        cases hrec : avgRound maxcols fs (some rcd.1) act rcd.2.1 with
        | error e =>
          simp only [avgRound, hacc, hrec, bind, Except.bind] at h
          exact Except.noConfusion h
        | ok rr =>
          simp only [avgRound, hacc, hrec, bind, Except.bind,
            Except.ok.injEq] at h
          subst h
          simp [ih _ _ _ _ hrec]

/-- When every cursor of a round is already exhausted, `active` drops by the
cursor count. -/
theorem avgRound_active_empty (maxcols : Option ℕ) :
    ∀ (fs : List (List Row)) (acc : Option (List Cell)) (act w : ℕ)
      (r : RoundRes), avgRound maxcols fs acc act w = .ok r →
      (∀ f ∈ fs, f = []) → r.active = act - fs.length := by
  intro fs
  induction fs with
  | nil =>
    intro acc act w r h _
    simp only [avgRound] at h
    cases h
    simp
  | cons f fs ih =>
    intro acc act w r h hall
    have hf : f = [] := hall f (by simp)
    subst hf
    cases hrec : avgRound maxcols fs acc (act - 1) w with
    | error e =>
      simp only [avgRound, hrec, bind, Except.bind] at h
      exact Except.noConfusion h
    | ok rr =>
      simp only [avgRound, hrec, bind, Except.bind, Except.ok.injEq] at h
      subst h
      have := ih acc (act - 1) w rr hrec (fun g hg => hall g (by simp [hg]))
      simp only [this, List.length_cons]
      omega

/-- If a round ends with an active cursor, some cursor had a row left. -/
theorem avgRound_active_pos (maxcols : Option ℕ)
    (fs : List (List Row)) (acc : Option (List Cell)) (w : ℕ)
    (r : RoundRes) (h : avgRound maxcols fs acc fs.length w = .ok r)
    (hact : r.active ≠ 0) : ∃ f ∈ fs, f ≠ [] := by
  by_contra hno
  push_neg at hno
  have := avgRound_active_empty maxcols fs acc fs.length w r h hno
  rw [this] at hact
  omega

/-- Taking tails never increases the total number of remaining rows. -/
theorem sum_len_tail_le :
    ∀ (fs : List (List Row)),
      ((fs.map List.tail).map List.length).sum ≤ (fs.map List.length).sum := by
  intro fs
  induction fs with
  | nil => simp
  | cons f fs ih =>
    simp only [List.map_cons, List.sum_cons]
    have : f.tail.length ≤ f.length := by
      cases f <;> simp
    omega

/-- A round that consumed at least one row strictly shrinks the total number
of remaining rows. -/
theorem sum_len_tail_lt :
    ∀ (fs : List (List Row)), (∃ f ∈ fs, f ≠ []) →
      ((fs.map List.tail).map List.length).sum < (fs.map List.length).sum := by
  intro fs
  induction fs with
  | nil => simp
  | cons f fs ih =>
    rintro ⟨g, hg, hne⟩
    simp only [List.map_cons, List.sum_cons]
    rcases List.mem_cons.mp hg with hgf | hgm
    · subst hgf
      have h1 : g.tail.length < g.length := by
        cases g with
        | nil => simp at hne
        | cons a as => simp
      have h2 := sum_len_tail_le fs
      omega
    · have h1 : f.tail.length ≤ f.length := by cases f <;> simp
      have h2 := ih ⟨g, hgm, hne⟩
      omega

/-- The `while True` loop of `average_vals`: run a round; stop (without
writing) when no cursor is active any more; otherwise write the accumulator
divided by the active count and continue.  Returns the written rows together
with the total number of diagnostics printed. -/
def avgLoop (maxcols : Option ℕ) (files : List (List Row)) (warn : ℕ) :
    Except PyErr (List (List Cell) × ℕ) :=
  match h : avgRound maxcols files none files.length warn with
  | .error e => .error e
  | .ok r =>
    if hA : r.active = 0 then .ok ([], r.diag)
    else
      match r.acc with
      | none => .error .typeErr
      | some a =>
        match avgLoop maxcols r.rem r.warn with
        | .error e => .error e
        | .ok rd =>
          .ok ((a.map (fun s => try_divide s r.active)) :: rd.1,
               r.diag + rd.2)
termination_by (files.map List.length).sum
decreasing_by
  have hrem := avgRound_rem maxcols files none files.length warn r h
  have hpos := avgRound_active_pos maxcols files none warn r h hA
  rw [hrem]
  exact sum_len_tail_lt files hpos

/-- `average.average_vals` on the list of input report files
(`warncount` starts at 1). -/
def average_vals (infiles : List (List Row)) (maxcols : Option ℕ := none) :
    Except PyErr (List (List Cell) × ℕ) :=
  avgLoop maxcols infiles 1

/-! ### `delivery_matrix.py` -/

/-- Host group: `Option String` carrying Python's `None < every string`
comparison (py2 compares `NoneType` before `str`), i.e. `WithBot String`. -/
abbrev HostGrp := WithBot String

/-- `delivery_matrix.group_from_hostname`:
`re.match(r"([a-z]+)([0-9]+)", hostname, re.I)` succeeds exactly when the
maximal leading alphabetic run is nonempty and immediately followed by a
digit; the first capture group is that run.  Otherwise `None`. -/
def group_from_hostname (hostname : String) : HostGrp :=
  let letters := hostname.data.takeWhile Char.isAlpha
  match hostname.data.dropWhile Char.isAlpha with
  | c :: _ =>
    if letters ≠ [] ∧ c.isDigit then (String.mk letters : String) else ⊥
  | [] => ⊥

/-- A `(source_group, dest_group)` key of the delivery matrix. -/
abbrev GPair := HostGrp × HostGrp

/-- Python tuple comparison on matrix keys: lexicographic. -/
def gpairLe (a b : GPair) : Prop := a.1 < b.1 ∨ (a.1 = b.1 ∧ a.2 ≤ b.2)

/-- Python's `sorted(pdr.items())` comparison; keys are unique, so the key
part decides. -/
def pdrLe (a b : GPair × ℚ) : Prop := gpairLe a.1 b.1

instance : DecidableRel gpairLe := fun a b => by
  unfold gpairLe; infer_instance

instance : DecidableRel pdrLe := fun a b => by
  unfold pdrLe gpairLe; infer_instance

instance : IsTrans GPair gpairLe :=
  ⟨by
    rintro a b c (h1 | ⟨e1, l1⟩) (h2 | ⟨e2, l2⟩)
    · exact Or.inl (lt_trans h1 h2)
    · exact Or.inl (lt_of_lt_of_le h1 (le_of_eq e2))
    · exact Or.inl (lt_of_le_of_lt (le_of_eq e1) h2)
    · exact Or.inr ⟨e1.trans e2, le_trans l1 l2⟩⟩

instance : IsTotal GPair gpairLe :=
  ⟨by
    intro a b
    rcases lt_trichotomy a.1 b.1 with h | h | h
    · exact Or.inl (Or.inl h)
    · rcases le_total a.2 b.2 with h2 | h2
      · exact Or.inl (Or.inr ⟨h, h2⟩)
      · exact Or.inr (Or.inr ⟨h.symm, h2⟩)
    · exact Or.inr (Or.inl h)⟩

instance : IsTrans (GPair × ℚ) pdrLe :=
  ⟨fun _ _ _ h1 h2 => Trans.trans (r := gpairLe) h1 h2⟩

instance : IsTotal (GPair × ℚ) pdrLe :=
  ⟨fun a b => IsTotal.total (r := gpairLe) a.1 b.1⟩

/-- `row[i]` on a split line of hostnames. -/
def getStr (row : List String) (i : ℕ) : Except PyErr String :=
  match row.get? i with
  | some s => .ok s
  | none => .error .indexErr

/-- `(group_from_hostname(row[i]), group_from_hostname(row[j]))`. -/
def pairKey (row : List String) (i j : ℕ) : Except PyErr GPair := do
  let s ← getStr row i
  let d ← getStr row j
  .ok (group_from_hostname s, group_from_hostname d)

/-- `d[pair] += 1` on a `defaultdict(int)`. -/
def bump (d : List (GPair × ℕ)) (k : GPair) : List (GPair × ℕ) :=
  alistSet d k ((alistGet? d k).getD 0 + 1)

/-- Per-pair counting over one log, host fields at positions `i`, `j`. -/
def countPairs (rows : List (List String)) (i j : ℕ) :
    Except PyErr (List (GPair × ℕ)) :=
  rows.foldlM (fun d row => do .ok (bump d (← pairKey row i j))) []

/-- `delivery_matrix.generate_delivery_matrix`: count creation pairs (fields
3/4) and delivery pairs (fields 5/6); for every creation pair emit
`delivered/created` (0 when the pair was never delivered); output sorted by
pair. -/
def generate_delivery_matrix (createdRows deliveredRows : List (List String)) :
    Except PyErr (List (GPair × ℚ)) := do
  let created ← countPairs createdRows 3 4
  let delivered ← countPairs deliveredRows 5 6
  let pdr := created.map (fun pc =>
    (pc.1, match alistGet? delivered pc.1 with
           | some dc => (dc : ℚ) / (pc.2 : ℚ)
           | none => (0 : ℚ)))
  .ok (List.insertionSort pdrLe pdr)

/-! ### Spec-side definitions

These definitions follow the specification's words (not the source); they
exist to be compared with the embedded source functions. -/

/-- A concrete numeric token, for concrete runs. -/
def tokN (s : String) (q : ℚ) : Tok := ⟨s, some q⟩

/-- Modelled from the spec: "at any sampled time T, `created_count` equals
the number of creations with `creation_time ≤ T < creation_time+ttl`"
(TTL from field 5 in minutes, times 60). -/
def specCreatedCount (cs : List CEvent) (T : ℚ) : ℕ :=
  (cs.filter (fun e => decide (e.t ≤ T ∧ T < e.t + e.ttlMin * 60))).length

/-- The parsed value of a token as an output cell: its number, or the raw
string passed through. -/
def cellOf (t : Tok) : Cell :=
  match t.val with
  | some q => .inl q
  | none => .inr t.str

/-- Whether any field of any line of a report fails to parse as a number. -/
def anyBad (rows : List Row) : Bool :=
  rows.any (fun r => r.any (fun t => t.val.isNone))

/-- Modelled from the spec (SeriesAverager): the number of rounds is the
longest file's length. -/
def maxLen (files : List (List Row)) : ℕ :=
  (files.map List.length).foldr max 0

/-- Modelled from the spec (SeriesAverager): the cursors active in round
`k` are the files with more than `k` rows. -/
def activeAt (files : List (List Row)) (k : ℕ) : List (List Row) :=
  files.filter (fun f => decide (k < f.length))

/-- Field `i` of row `k` of a file, as a number (0 on any miss; the
hypotheses of the theorems using it rule misses out). -/
def tokAt (f : List Row) (k i : ℕ) : ℚ :=
  ((((f.get? k).getD []).get? i).getD ⟨"", none⟩).val.getD 0

/-- Modelled from the spec (SeriesAverager): output row `k`, column `i` is
the sum over the active cursors divided by the active count. -/
def specAvgRow (files : List (List Row)) (c k : ℕ) : List Cell :=
  (List.range c).map (fun i =>
    Sum.inl ((((activeAt files k).map (fun f => tokAt f k i)).sum)
      / ((activeAt files k).length : ℚ)))

/-- Modelled from the spec (SeriesAverager): one output row per round. -/
def specAvgRows (files : List (List Row)) (c : ℕ) : List (List Cell) :=
  (List.range (maxLen files)).map (specAvgRow files c)

/-- The grid points `(a+1)*r, (a+2)*r, ..., (a+k)*r`. -/
def multsFrom (r : ℚ) (a k : ℕ) : List ℚ :=
  (List.range k).map (fun i => ((a + i + 1 : ℕ) : ℚ) * r)

/-- All event timestamps of a run (both logs). -/
def timesOf (cs : List CEvent) (ds : List DEvent) : List ℚ :=
  cs.map CEvent.t ++ ds.map DEvent.t

/-- The pair key of every row of a log (fields `i`, `j`). -/
def pairsOfRows (rows : List (List String)) (i j : ℕ) :
    Except PyErr (List GPair) :=
  rows.mapM (fun row => pairKey row i j)

/-- The queue entries `(expiry, id)` of a creation-event list. -/
def entriesOf (cs : List CEvent) : List (ℚ × String) :=
  cs.map (fun e => (e.expiry, e.id))

/-- `current_time` of the next loop iteration: the minimum of the cursor
head timestamps (`none` when both cursors are exhausted). -/
def minHead? (cs : List CEvent) (ds : List DEvent) : Option ℚ :=
  match cs, ds with
  | [], [] => none
  | c :: _, [] => some c.t
  | [], d :: _ => some d.t
  | c :: _, d :: _ => some (min c.t d.t)

/-- A strict upper bound that every already-popped queue entry's expiry
satisfies between loop iterations: the next `current_time` (unresampled) or
`last_write + res` (resampled). -/
def nextBound (res : Option ℚ) (cs : List CEvent) (ds : List DEvent)
    (st : TtlSt) : Option ℚ :=
  match res with
  | none => minHead? cs ds
  | some r => some (st.lastWrite + r)

/-- Per-emission conclusion of the TTL-loop invariant: the read creation
entries split into an all-expired popped prefix and the snapshot queue, the
queue head is unexpired at the emitted abscissa, `created` tracks the queue
length minus the lookahead, and the emitted abscissa does not exceed the
lookahead timestamp. -/
def TtlConcl (cs consumed : List CEvent) (em : Emission) : Prop :=
  ∃ k popped2,
    k ≤ cs.length ∧
    em.remC = cs.drop k ∧
    entriesOf ((consumed ++ cs.take k) ++ (cs.drop k).take 1)
      = popped2 ++ em.st.queue ∧
    (∀ en ∈ popped2, en.1 < em.x) ∧
    (∀ hd ∈ em.st.queue.head?, ¬ hd.1 < em.x) ∧
    em.st.created = (em.st.queue.length : ℤ)
      - ((em.remC.take 1).length : ℤ) ∧
    (∀ e ∈ em.remC.take 1, em.x ≤ e.t) ∧
    em.ratio = ratioOf em.st.delivered em.st.created

/-- Between-iterations invariant of the TTL loop. -/
def TtlInv (res : Option ℚ) (cs : List CEvent) (ds : List DEvent)
    (consumed : List CEvent) (st : TtlSt) : Prop :=
  (∃ popped, entriesOf (consumed ++ cs.take 1) = popped ++ st.queue ∧
    ∀ en ∈ popped, ∀ b ∈ nextBound res cs ds st, en.1 < b) ∧
  st.created = (st.queue.length : ℤ) - ((cs.take 1).length : ℤ)

/-- Whether some field of one line fails to parse. -/
def rowBad (row : Row) : Bool := row.any (fun t => t.val.isNone)

/-- The accumulator cell for one column after `j` passes over the same
line: `j` times the value for a numeric field, the raw string (once `j > 0`)
for a non-parsing field. -/
def cellAfter (j : ℕ) (t : Tok) : Cell :=
  match t.val with
  | some q => .inl ((j : ℚ) * q)
  | none => if j = 0 then .inl 0 else .inr t.str

/-- Numeric value of a cell (0 for a passthrough string). -/
def cellVal (c : Cell) : ℚ :=
  match c with
  | .inl q => q
  | .inr _ => 0

/-- One numeric accumulation step. -/
def addTok (c : Cell) (t : Tok) : Cell :=
  .inl (cellVal c + t.val.getD 0)

/-- Field `i` of one line, as a number. -/
def tokV (row : Row) (i : ℕ) : ℚ := ((row.get? i).getD ⟨"", none⟩).val.getD 0

/-- Column-`i` sum of the current head line of every non-exhausted cursor. -/
def headSum (files : List (List Row)) (i : ℕ) : ℚ :=
  ((files.filterMap List.head?).map (fun row => tokV row i)).sum

/-- Number of exhausted cursors. -/
def emptyCount (files : List (List Row)) : ℕ :=
  (files.filter (fun f => f.isEmpty)).length

/-! ## Theorems -/

/-- C1: on the failing input (a delivery event at t=0, first creation only
at t=5) the simple-mode streamer aborts with `ZeroDivisionError`, because
its `float(delivered)/created` has no guard; the TTL-aware mode on the same
scenario emits the defined sentinel ratio 0 at that sample and completes.
The spec (§7, §9) mandates the uniform non-fatal 0 for both modes, so the
unguarded simple mode is the slip. -/
theorem c1_zero_denominator :
    generate_running_delivery [[tokN "5" 5]] [[tokN "0" 0]] none
      = .error .zeroDiv ∧
    generate_running_delivery_ttl
      [[tokN "5" 5, ⟨"A", none⟩, ⟨"x", none⟩, ⟨"x", none⟩, ⟨"x", none⟩,
        tokN "10" 10]]
      [[tokN "0" 0, ⟨"A", none⟩]] none
      = .ok [(0, 0), (5, 1)] := by
  constructor
  · simp [generate_running_delivery, simpleLoop, simpleRatio, simpleEmit,
      pyFloat, getTok, tokN, bind, Except.bind, pure, Except.pure,
      List.mapM.loop]
  · norm_num [generate_running_delivery_ttl, parseCreated, parseDelivered,
      ttlTrace, ttlInit, ttlLoop, ttlEmit, popExpired, pushC, pushD, ratioOf,
      CEvent.expiry, pyFloat, getTok, tokN, bind, Except.bind, pure,
      Except.pure, List.mapM.loop]

/-- C4 counterexample: a line whose first non-whitespace character is the
comment marker `'#'` but which starts with a space is NOT skipped by the
reader (Python `startswith` looks at the first character only): the reader
yields it, split. -/
theorem c4_counterexample :
    filtered_split_reader [" # x"] = [["#", "x"]] ∧
    (" # x".data.dropWhile Char.isWhitespace).head? = some '#' := by
  constructor
  · decide
  · decide

/-- C4 (amended): the reader skips a line if and only if its first character
(not its first non-whitespace character) is `'#'`, and yields every other
line split on whitespace, in file order, with no schema validation. -/
theorem c4_amended (lines : List String) (prefixes : List (List String)) :
    filtered_split_reader lines prefixes
      = (lines.filter (fun l => l.data.head? ≠ some '#')).map pySplit := by
  unfold filtered_split_reader filtered_comments_reader
  congr 1
  apply List.filter_congr
  intro l _
  cases hl : l.data with
  | nil => simp [pyStartsWith, hl, List.isPrefixOf]
  | cons c cl =>
    by_cases hc : c = '#'
    · simp [pyStartsWith, hl, hc, List.isPrefixOf]
    · simp [pyStartsWith, hl, hc, List.isPrefixOf, Ne.symm hc]

/-- C5: `read_unique_encounters` seeds the dict with key `node_id` bound to
0 (`if not node in …: …[node] = 0`), so on the single row `(5, 9, 3)` the
result has the key 5 — which is not a `unique_encounters` value of any row —
and the written histogram contains the spurious line `(5, 0)`. -/
theorem c5_node_seed_bug :
    read_unique_encounters [(5, 9, 3)] = [(5, 0), (3, 1)] ∧
    alistGet? (read_unique_encounters [(5, 9, 3)]) 5 = some 0 ∧
    (5 : ℤ) ∉ [((5 : ℤ), (9 : ℤ), (3 : ℤ))].map (fun r => r.2.2) ∧
    write_unique_encounters (read_unique_encounters [(5, 9, 3)])
      = [(3, 1), (5, 0)] := by
  refine ⟨by decide, by decide, by decide, by decide⟩

/-- C2 counterexample.  First input (creations A at t=0 and B at t=60, both
with a 1-minute TTL, no deliveries, both logs sorted): at the sample at
T=60 the code keeps the entry of A — the pop condition is `expiry < T`, not
`expiry ≤ T` — so `created_count = 2`, while the claimed count
`#{creation_time ≤ T < creation_time+ttl}` is 1.  Second input (creation B
at t=0 with 10-minute TTL; deliveries of the never-created id A at t=1 and
t=2): the third sample has `delivered_count = 2 > 1 = created_count`,
refuting the claimed `delivered_count ≤ created_count`. -/
theorem c2_counterexample :
    ((ttlTrace none [⟨0, "A", 1⟩, ⟨60, "B", 1⟩] []).map
        (fun em => (em.x, em.st.created)) = [(0, 1), (60, 2)] ∧
      specCreatedCount [⟨0, "A", 1⟩, ⟨60, "B", 1⟩] 60 = 1 ∧
      List.Pairwise (fun a b : CEvent => a.t ≤ b.t) [⟨0, "A", 1⟩, ⟨60, "B", 1⟩]) ∧
    ((ttlTrace none [⟨0, "B", 10⟩] [⟨1, "A"⟩, ⟨2, "A"⟩]).map
        (fun em => (em.st.created, em.st.delivered))
        = [(1, 0), (1, 1), (1, 2)] ∧
      List.Pairwise (fun a b : DEvent => a.t ≤ b.t) [⟨1, "A"⟩, ⟨2, "A"⟩] ∧
      ¬ ((2 : ℤ) ≤ 1)) := by
  refine ⟨⟨?_, ?_, ?_⟩, ?_, ?_, ?_⟩
  · norm_num [ttlTrace, ttlInit, ttlLoop, ttlEmit, popExpired, pushC, pushD,
      ratioOf, CEvent.expiry]
  · norm_num [specCreatedCount]
  · norm_num [List.pairwise_cons]
  · norm_num [ttlTrace, ttlInit, ttlLoop, ttlEmit, popExpired, pushC, pushD,
      ratioOf, CEvent.expiry]
  · norm_num [List.pairwise_cons]
  · norm_num

/-- C3 counterexample: creations A (t=0, TTL 1 second, expiry 1) and C
(t=5, TTL 10 minutes); one delivery of A at t=10.  Both logs are
timestamp-sorted and TTLs non-negative.  The delivery id A enters
`delivered_ids` as soon as the delivery line is READ (one event of
lookahead), so when A's queue entry expires at the t=5 sample —
before the delivery is counted — `delivered` is decremented to -1 and the
emitted ratio is -1, outside [0,1]. -/
theorem c3_counterexample :
    (ttlTrace none [⟨0, "A", 1/60⟩, ⟨5, "C", 10⟩] [⟨10, "A"⟩]).map
        (fun em => (em.x, em.ratio, em.st.delivered))
      = [(0, 0, 0), (5, -1, -1), (10, 0, 0)] ∧
    List.Pairwise (fun a b : CEvent => a.t ≤ b.t)
      [⟨0, "A", 1/60⟩, ⟨5, "C", 10⟩] ∧
    (∀ e ∈ [CEvent.mk 0 "A" (1/60), CEvent.mk 5 "C" 10], 0 ≤ e.ttlMin) ∧
    ¬ ((0 : ℚ) ≤ -1) := by
  refine ⟨?_, ?_, ?_, ?_⟩
  · norm_num [ttlTrace, ttlInit, ttlLoop, ttlEmit, popExpired, pushC, pushD,
      ratioOf, CEvent.expiry]
  · norm_num [List.pairwise_cons]
  · norm_num
  · norm_num

/-- `popExpired` in closed form: dropped prefix = `takeWhile (expiry < b)`,
with the counters decremented accordingly. -/
theorem popExpired_eq (b : ℚ) (ids : List String) :
    ∀ (q : List (ℚ × String)) (c d : ℤ),
      popExpired b ids q c d =
        (q.dropWhile (fun en => decide (en.1 < b)),
         c - ((q.takeWhile (fun en => decide (en.1 < b))).length : ℤ),
         d - (((q.takeWhile (fun en => decide (en.1 < b))).filter
            (fun en => decide (en.2 ∈ ids))).length : ℤ)) := by
  intro q
  induction q with
  | nil => intro c d; simp [popExpired]
  | cons en q ih =>
    intro c d
    obtain ⟨e, i⟩ := en
    by_cases he : e < b
    · by_cases hi : i ∈ ids <;>
        simp [popExpired, he, hi, ih, List.dropWhile_cons,
          List.takeWhile_cons] <;>
        push_cast <;>
        first
        | trivial
        | omega
        | (constructor <;> first | trivial | omega)
    · simp [popExpired, he, List.dropWhile_cons, List.takeWhile_cons]

/-- The head of `dropWhile p l` does not satisfy `p`. -/
theorem head?_dropWhile (p : α → Bool) :
    ∀ (l : List α) (x : α), (l.dropWhile p).head? = some x → p x = false := by
  intro l
  induction l with
  | nil => intro x h; simp [List.dropWhile] at h
  | cons a l ih =>
    intro x h
    by_cases ha : p a
    · rw [List.dropWhile_cons_of_pos ha] at h
      exact ih x h
    · rw [List.dropWhile_cons_of_neg ha] at h
      simp at h
      subst h
      simpa using ha

/-- Every grid point lies in `[lw + res, curT)`. -/
theorem gridPts_mem (res : ℚ) :
    ∀ (n : ℕ) (lw curT : ℚ), (Int.ceil ((curT - lw) / res)).toNat ≤ n →
      ∀ p ∈ gridPts res lw curT, lw + res ≤ p ∧ p < curT := by
  intro n
  induction n with
  | zero =>
    intro lw curT hn p hp
    rw [gridPts] at hp
    split at hp
    · rename_i h
      exfalso
      have hres : 0 < res := h.1
      have h1 : (1 : ℚ) < (curT - lw) / res := by
        rw [lt_div_iff hres]; linarith [h.2]
      have : (1 : ℤ) < Int.ceil ((curT - lw) / res) := by
        exact_mod_cast Int.lt_ceil.mpr (by exact_mod_cast h1)
      omega
    · simp at hp
  | succ n ih =>
    intro lw curT hn p hp
    rw [gridPts] at hp
    split at hp
    · rename_i h
      have hres : 0 < res := h.1
      rcases List.mem_cons.mp hp with rfl | hmem
      · exact ⟨le_refl _, h.2⟩
      · have hmeas : (Int.ceil ((curT - (lw + res)) / res)).toNat ≤ n := by
          have h1 : (1 : ℚ) < (curT - lw) / res := by
            rw [lt_div_iff hres]; linarith [h.2]
          have hc1 : (1 : ℤ) < Int.ceil ((curT - lw) / res) := by
            exact_mod_cast Int.lt_ceil.mpr (by exact_mod_cast h1)
          have hsub : (curT - (lw + res)) / res = (curT - lw) / res - 1 := by
            field_simp; ring
          have hstep : Int.ceil ((curT - (lw + res)) / res)
              = Int.ceil ((curT - lw) / res) - 1 := by
            rw [hsub, Int.ceil_sub_one]
          omega
        have := ih (lw + res) curT hmeas p hmem
        constructor
        · linarith [this.1]
        · exact this.2
    · simp at hp

/-- Convenience form of `gridPts_mem`. -/
theorem gridPts_mem' (res lw curT : ℚ) :
    ∀ p ∈ gridPts res lw curT, lw + res ≤ p ∧ p < curT :=
  gridPts_mem res _ lw curT le_rfl

/-- Grid points are emitted in (weakly) ascending order. -/
theorem gridPts_sorted (res : ℚ) :
    ∀ (n : ℕ) (lw curT : ℚ), (Int.ceil ((curT - lw) / res)).toNat ≤ n →
      List.Pairwise (fun a b : ℚ => a ≤ b) (gridPts res lw curT) := by
  intro n
  induction n with
  | zero =>
    intro lw curT hn
    rw [gridPts]
    split
    · rename_i h
      exfalso
      have hres : 0 < res := h.1
      have h1 : (1 : ℚ) < (curT - lw) / res := by
        rw [lt_div_iff hres]; linarith [h.2]
      have : (1 : ℤ) < Int.ceil ((curT - lw) / res) := by
        exact_mod_cast Int.lt_ceil.mpr (by exact_mod_cast h1)
      omega
    · exact List.Pairwise.nil
  | succ n ih =>
    intro lw curT hn
    rw [gridPts]
    split
    · rename_i h
      have hres : 0 < res := h.1
      have hmeas : (Int.ceil ((curT - (lw + res)) / res)).toNat ≤ n := by
        have h1 : (1 : ℚ) < (curT - lw) / res := by
          rw [lt_div_iff hres]; linarith [h.2]
        have hc1 : (1 : ℤ) < Int.ceil ((curT - lw) / res) := by
          exact_mod_cast Int.lt_ceil.mpr (by exact_mod_cast h1)
        have hsub : (curT - (lw + res)) / res = (curT - lw) / res - 1 := by
          field_simp; ring
        have hstep : Int.ceil ((curT - (lw + res)) / res)
            = Int.ceil ((curT - lw) / res) - 1 := by
          rw [hsub, Int.ceil_sub_one]
        omega
      refine List.Pairwise.cons ?_ (ih (lw + res) curT hmeas)
      intro p hp
      have := (gridPts_mem' res (lw + res) curT p hp).1
      linarith
    · exact List.Pairwise.nil

/-- On loop exit no grid point remains strictly below `curT`:
the final `last_write` plus `res` reaches `curT`. -/
theorem gridPts_exit (res : ℚ) (hres : 0 < res) :
    ∀ (n : ℕ) (lw curT : ℚ), (Int.ceil ((curT - lw) / res)).toNat ≤ n →
      curT ≤ (gridPts res lw curT).getLast?.getD lw + res := by
  intro n
  induction n with
  | zero =>
    intro lw curT hn
    rw [gridPts]
    split
    · rename_i h
      exfalso
      have h1 : (1 : ℚ) < (curT - lw) / res := by
        rw [lt_div_iff hres]; linarith [h.2]
      have : (1 : ℤ) < Int.ceil ((curT - lw) / res) := by
        exact_mod_cast Int.lt_ceil.mpr (by exact_mod_cast h1)
      omega
    · rename_i h
      push_neg at h
      simpa using h hres
  | succ n ih =>
    intro lw curT hn
    rw [gridPts]
    split
    · rename_i h
      have hmeas : (Int.ceil ((curT - (lw + res)) / res)).toNat ≤ n := by
        have h1 : (1 : ℚ) < (curT - lw) / res := by
          rw [lt_div_iff hres]; linarith [h.2]
        have hc1 : (1 : ℤ) < Int.ceil ((curT - lw) / res) := by
          exact_mod_cast Int.lt_ceil.mpr (by exact_mod_cast h1)
        have hsub : (curT - (lw + res)) / res = (curT - lw) / res - 1 := by
          field_simp; ring
        have hstep : Int.ceil ((curT - (lw + res)) / res)
            = Int.ceil ((curT - lw) / res) - 1 := by
          rw [hsub, Int.ceil_sub_one]
        omega
      have hrec := ih (lw + res) curT hmeas
      cases hg : gridPts res (lw + res) curT with
      | nil => simpa [hg] using hrec
      | cons q qs =>
        rw [hg] at hrec
        simpa [List.getLast?_cons] using hrec
    · rename_i h
      push_neg at h
      simpa using h hres

/-- After the grid walk, `last_write` is the last grid point (unchanged if
there was none), and the delivered-id set is untouched. -/
theorem ttlGrid_final (remC : List CEvent) (remD : List DEvent) :
    ∀ (pts : List ℚ) (st : TtlSt),
      (ttlGrid remC remD pts st).2.lastWrite
        = pts.getLast?.getD st.lastWrite := by
  intro pts
  induction pts with
  | nil => intro st; simp [ttlGrid]
  | cons p ps ih =>
    intro st
    simp only [ttlGrid]
    rw [ih]
    cases ps <;> simp [List.getLast?_cons]

/-- Grid-walk invariant of the TTL streamer.  Given that the read entry list
splits as already-popped prefix plus current queue, with every popped entry
strictly below every upcoming grid point, each grid emission again splits
the read list with all popped entries strictly below the emitted abscissa,
the queue head unexpired at it, and the `created` counter tracking the
queue length; the final state satisfies the transported split. -/
theorem ttlGrid_emissions (remC : List CEvent) (remD : List DEvent) :
    ∀ (pts : List ℚ) (st : TtlSt) (readE popped : List (ℚ × String)) (l0 : ℤ),
      readE = popped ++ st.queue →
      List.Pairwise (fun a b : ℚ => a ≤ b) pts →
      (∀ p ∈ pts, ∀ en ∈ popped, en.1 < p) →
      st.created = (st.queue.length : ℤ) - l0 →
      (∀ em ∈ (ttlGrid remC remD pts st).1,
        em.x ∈ pts ∧ em.remC = remC ∧ em.remD = remD ∧
        em.ratio = ratioOf em.st.delivered em.st.created ∧
        em.st.created = (em.st.queue.length : ℤ) - l0 ∧
        (∀ hd ∈ em.st.queue.head?, ¬ hd.1 < em.x) ∧
        ∃ popped2, readE = popped2 ++ em.st.queue ∧
          ∀ en ∈ popped2, en.1 < em.x) ∧
      (∃ popped2, readE = popped2 ++ (ttlGrid remC remD pts st).2.queue ∧
        ∀ b2, (∀ p ∈ pts, p ≤ b2) → (∀ en ∈ popped, en.1 < b2) →
          ∀ en ∈ popped2, en.1 < b2) ∧
      (ttlGrid remC remD pts st).2.created
        = ((ttlGrid remC remD pts st).2.queue.length : ℤ) - l0 := by
  intro pts
  induction pts with
  | nil =>
    intro st readE popped l0 hsplit hsort hbound hcount
    refine ⟨by simp [ttlGrid], ⟨popped, hsplit, ?_⟩, by simpa [ttlGrid] using hcount⟩
    intro b2 _ hb en hen
    exact hb en hen
  | cons p ps ih =>
    intro st readE popped l0 hsplit hsort hbound hcount
    have hpe := popExpired_eq p st.dIds st.queue st.created st.delivered
    set tk := st.queue.takeWhile (fun en => decide (en.1 < p)) with htk
    set dr := st.queue.dropWhile (fun en => decide (en.1 < p)) with hdr
    have hqsplit : st.queue = tk ++ dr :=
      (List.takeWhile_append_dropWhile _ st.queue).symm
    have hlen : (st.queue.length : ℤ) = (tk.length : ℤ) + (dr.length : ℤ) := by
      rw [hqsplit]; push_cast [List.length_append]; ring
    have htklt : ∀ en ∈ tk, en.1 < p := by
      intro en hen
      have := List.mem_takeWhile_imp hen
      simpa using this
    have hcount' :
        st.created - (tk.length : ℤ) = (dr.length : ℤ) - l0 := by
      rw [hcount, hlen]; ring
    have hsplit' : readE = (popped ++ tk) ++ dr := by
      rw [hsplit, hqsplit, List.append_assoc]
    have hboundtail : ∀ q ∈ ps, ∀ en ∈ popped ++ tk, en.1 < q := by
      intro q hq en hen
      have hpq : p ≤ q := by
        rcases List.pairwise_cons.mp hsort with ⟨hp, _⟩
        exact hp q hq
      rcases List.mem_append.mp hen with h | h
      · exact hbound q (List.mem_cons_of_mem _ hq) en h
      · exact lt_of_lt_of_le (htklt en h) hpq
    simp only [ttlGrid, hpe]
    have ihres := ih
      ⟨st.created - (tk.length : ℤ),
       st.delivered - ((tk.filter
         (fun en => decide (en.2 ∈ st.dIds))).length : ℤ),
       dr, st.dIds, p⟩
      readE (popped ++ tk) l0 hsplit'
      (List.pairwise_cons.mp hsort).2 hboundtail hcount'
    refine ⟨?_, ?_, ?_⟩
    · intro em hem
      rcases List.mem_cons.mp hem with rfl | hem2
      · refine ⟨List.mem_cons_self _ _, rfl, rfl, rfl, hcount', ?_, ?_⟩
        · intro hd hhd
          have := head?_dropWhile _ _ _ hhd
          simpa using this
        · exact ⟨popped ++ tk, hsplit', fun en hen => by
            rcases List.mem_append.mp hen with h | h
            · exact hbound p (List.mem_cons_self _ _) en h
            · exact htklt en h⟩
      · have := ihres.1 em hem2
        exact ⟨List.mem_cons_of_mem _ this.1, this.2.1, this.2.2.1,
          this.2.2.2.1, this.2.2.2.2.1, this.2.2.2.2.2.1,
          this.2.2.2.2.2.2⟩
    · obtain ⟨popped2, hsp2, hb2⟩ := ihres.2.1
      refine ⟨popped2, hsp2, ?_⟩
      intro b2 hall hold en hen
      refine hb2 b2 (fun q hq => hall q (List.mem_cons_of_mem _ hq)) ?_ en hen
      intro en2 hen2
      rcases List.mem_append.mp hen2 with h | h
      · exact hold en2 h
      · exact lt_of_lt_of_le (htklt en2 h) (hall p (List.mem_cons_self _ _))
    · exact ihres.2.2

/-- Emission-step invariant of the TTL streamer, covering both modes: the
read-entry split with popped entries strictly below each emitted abscissa,
the unexpired queue head, the `created`/queue-length bookkeeping, and the
`last_write` movement. -/
theorem ttlEmit_emissions (res : Option ℚ) (hres : ∀ r0 ∈ res, 0 < r0)
    (curT : ℚ) (cs2 : List CEvent) (ds2 : List DEvent) (st1 : TtlSt)
    (readE popped : List (ℚ × String)) (l0 : ℤ)
    (hsplit : readE = popped ++ st1.queue)
    (hbU : res = none → ∀ en ∈ popped, en.1 < curT)
    (hbR : ∀ r0, res = some r0 → ∀ en ∈ popped, en.1 < st1.lastWrite + r0)
    (hcount : st1.created = (st1.queue.length : ℤ) - l0) :
    (∀ em ∈ (ttlEmit res curT cs2 ds2 st1).1,
      em.x ≤ curT ∧ em.remC = cs2 ∧ em.remD = ds2 ∧
      em.ratio = ratioOf em.st.delivered em.st.created ∧
      em.st.created = (em.st.queue.length : ℤ) - l0 ∧
      (∀ hd ∈ em.st.queue.head?, ¬ hd.1 < em.x) ∧
      ∃ popped2, readE = popped2 ++ em.st.queue ∧
        ∀ en ∈ popped2, en.1 < em.x) ∧
    (∃ popped2, readE = popped2 ++ (ttlEmit res curT cs2 ds2 st1).2.queue ∧
      ∀ b2, curT ≤ b2 → (∀ en ∈ popped, en.1 < b2) →
        ∀ en ∈ popped2, en.1 < b2) ∧
    (ttlEmit res curT cs2 ds2 st1).2.created
      = ((ttlEmit res curT cs2 ds2 st1).2.queue.length : ℤ) - l0 ∧
    (res = none → (ttlEmit res curT cs2 ds2 st1).2.lastWrite = st1.lastWrite) ∧
    (∀ r0, res = some r0 →
      st1.lastWrite ≤ (ttlEmit res curT cs2 ds2 st1).2.lastWrite ∧
      curT ≤ (ttlEmit res curT cs2 ds2 st1).2.lastWrite + r0) := by
  cases res with
  | none =>
    have hpe := popExpired_eq curT st1.dIds st1.queue st1.created st1.delivered
    set tk := st1.queue.takeWhile (fun en => decide (en.1 < curT)) with htk
    set dr := st1.queue.dropWhile (fun en => decide (en.1 < curT)) with hdr
    have hqsplit : st1.queue = tk ++ dr :=
      (List.takeWhile_append_dropWhile _ st1.queue).symm
    have htklt : ∀ en ∈ tk, en.1 < curT := by
      intro en hen
      have := List.mem_takeWhile_imp hen
      simpa using this
    have hsplit2 : readE = (popped ++ tk) ++ dr := by
      rw [hsplit, hqsplit, List.append_assoc]
    have hlen : (st1.queue.length : ℤ) = (tk.length : ℤ) + (dr.length : ℤ) := by
      rw [hqsplit]; push_cast [List.length_append]; ring
    have hcount2 : st1.created - (tk.length : ℤ) = (dr.length : ℤ) - l0 := by
      rw [hcount, hlen]; ring
    have hplt : ∀ en ∈ popped ++ tk, en.1 < curT := by
      intro en hen
      rcases List.mem_append.mp hen with h | h
      · exact hbU rfl en h
      · exact htklt en h
    simp only [ttlEmit, hpe]
    refine ⟨?_, ⟨popped ++ tk, hsplit2, ?_⟩, hcount2, fun _ => trivial, ?_⟩
    · intro em hem
      rcases List.mem_singleton.mp hem with rfl
      refine ⟨le_refl _, rfl, rfl, rfl, hcount2, ?_, popped ++ tk, hsplit2, hplt⟩
      intro hd hhd
      have := head?_dropWhile _ _ _ hhd
      simpa using this
    · intro b2 hb2 hold en hen
      rcases List.mem_append.mp hen with h | h
      · exact hold en h
      · exact lt_of_lt_of_le (htklt en h) hb2
    · intro r0 h0
      exact absurd h0 (by simp)
  | some r0 =>
    have hr0 : 0 < r0 := hres r0 rfl
    set pts := gridPts r0 st1.lastWrite curT with hpts
    have hmem : ∀ p ∈ pts, st1.lastWrite + r0 ≤ p ∧ p < curT :=
      gridPts_mem' r0 st1.lastWrite curT
    have hsort : List.Pairwise (fun a b : ℚ => a ≤ b) pts :=
      gridPts_sorted r0 _ st1.lastWrite curT le_rfl
    have hexit : curT ≤ pts.getLast?.getD st1.lastWrite + r0 :=
      gridPts_exit r0 hr0 _ st1.lastWrite curT le_rfl
    have hbnd : ∀ p ∈ pts, ∀ en ∈ popped, en.1 < p := by
      intro p hp en hen
      exact lt_of_lt_of_le (hbR r0 rfl en hen) (hmem p hp).1
    have hgrid := ttlGrid_emissions cs2 ds2 pts st1 readE popped l0 hsplit
      hsort hbnd hcount
    have hfin := ttlGrid_final cs2 ds2 pts st1
    simp only [ttlEmit]
    refine ⟨?_, ?_, hgrid.2.2, by simp, ?_⟩
    · intro em hem
      have h1 := hgrid.1 em hem
      exact ⟨le_of_lt (hmem em.x h1.1).2, h1.2.1, h1.2.2.1, h1.2.2.2.1,
        h1.2.2.2.2.1, h1.2.2.2.2.2.1, h1.2.2.2.2.2.2⟩
    · obtain ⟨popped2, hsp2, hb2⟩ := hgrid.2.1
      refine ⟨popped2, hsp2, ?_⟩
      intro b2 hble hold
      exact hb2 b2 (fun p hp => le_trans (le_of_lt (hmem p hp).2) hble) hold
    · intro r1 h1
      have hr1 : r1 = r0 := by injection h1.symm
      subst hr1
      constructor
      · rw [hfin]
        cases hg : pts.getLast? with
        | none => simp
        | some x =>
          have hx : x ∈ pts := by
            obtain ⟨hne, hxe⟩ := List.mem_getLast?_eq_getLast
              (show x ∈ pts.getLast? by rw [hg]; rfl)
            subst hxe
            exact List.getLast_mem hne
          simp only [Option.getD_some]
          linarith [(hmem x hx).1]
      · rw [hfin]
        exact hexit

/-- `pushC` appends exactly the queue entry of the new lookahead. -/
theorem pushC_queue (st : TtlSt) (cs : List CEvent) :
    (pushC st cs).queue = st.queue ++ entriesOf (cs.take 1) := by
  cases cs <;> simp [pushC, entriesOf]

theorem pushC_created (st : TtlSt) (cs : List CEvent) :
    (pushC st cs).created = st.created := by
  cases cs <;> simp [pushC]

theorem pushC_lastWrite (st : TtlSt) (cs : List CEvent) :
    (pushC st cs).lastWrite = st.lastWrite := by
  cases cs <;> simp [pushC]

/-- `pushD` touches only the delivered-id set. -/
theorem pushD_queue (st : TtlSt) (ds : List DEvent) :
    (pushD st ds).queue = st.queue := by
  cases ds with
  | nil => simp [pushD]
  | cons d ds => by_cases h : d.id ∈ st.dIds <;> simp [pushD, h]

theorem pushD_created (st : TtlSt) (ds : List DEvent) :
    (pushD st ds).created = st.created := by
  cases ds with
  | nil => simp [pushD]
  | cons d ds => by_cases h : d.id ∈ st.dIds <;> simp [pushD, h]

theorem pushD_lastWrite (st : TtlSt) (ds : List DEvent) :
    (pushD st ds).lastWrite = st.lastWrite := by
  cases ds with
  | nil => simp [pushD]
  | cons d ds => by_cases h : d.id ∈ st.dIds <;> simp [pushD, h]

theorem entriesOf_append (l1 l2 : List CEvent) :
    entriesOf (l1 ++ l2) = entriesOf l1 ++ entriesOf l2 := by
  simp [entriesOf]

/-- A value below both cursor heads is below the merged `current_time`. -/
theorem minHead?_lb (cs : List CEvent) (ds : List DEvent) (x : ℚ)
    (hc : ∀ e ∈ cs.take 1, x ≤ e.t) (hd : ∀ e ∈ ds.take 1, x ≤ e.t) :
    ∀ b ∈ minHead? cs ds, x ≤ b := by
  cases cs with
  | nil =>
    cases ds with
    | nil => intro b hb; simp [minHead?] at hb
    | cons d ds2 =>
      intro b hb
      simp only [minHead?, Option.mem_def, Option.some.injEq] at hb
      subst hb
      exact hd d (by simp)
  | cons c cs2 =>
    cases ds with
    | nil =>
      intro b hb
      simp only [minHead?, Option.mem_def, Option.some.injEq] at hb
      subst hb
      exact hc c (by simp)
    | cons d ds2 =>
      intro b hb
      simp only [minHead?, Option.mem_def, Option.some.injEq] at hb
      subst hb
      exact le_min (hc c (by simp)) (hd d (by simp))

/-- Advancing the creation cursor shifts the consumed prefix by one. -/
theorem TtlConcl_shift (c : CEvent) (cs2 consumed : List CEvent)
    (em : Emission) (h : TtlConcl cs2 (consumed ++ [c]) em) :
    TtlConcl (c :: cs2) consumed em := by
  obtain ⟨k, popped2, hk, hrem, hent, hlt, hhd, hcnt, hxt, hrat⟩ := h
  exact ⟨k + 1, popped2, by simpa using Nat.succ_le_succ hk,
    by simpa [List.drop_succ_cons] using hrem,
    by simpa [List.take_succ_cons, List.drop_succ_cons, List.append_assoc,
      List.singleton_append, List.cons_append] using hent,
    hlt, hhd, hcnt, hxt, hrat⟩

/-- One iteration of the TTL loop: emission plus continuation.  Establishes
the per-emission conclusion for the current emissions and re-establishes the
invariant for the continuation. -/
theorem ttlIter (res : Option ℚ) (hres : ∀ r0 ∈ res, 0 < r0)
    (curT : ℚ) (cs2 : List CEvent) (ds2 : List DEvent)
    (consumed2 : List CEvent) (st1 : TtlSt) (popped : List (ℚ × String))
    (hsplit1 : entriesOf (consumed2 ++ cs2.take 1) = popped ++ st1.queue)
    (hpU : res = none → ∀ en ∈ popped, en.1 < curT)
    (hpR : ∀ r0, res = some r0 → ∀ en ∈ popped, en.1 < st1.lastWrite + r0)
    (hcount1 : st1.created = (st1.queue.length : ℤ)
      - ((cs2.take 1).length : ℤ))
    (hc1 : ∀ e ∈ cs2.take 1, curT ≤ e.t)
    (hd1 : ∀ e ∈ ds2.take 1, curT ≤ e.t)
    (hcont : ∀ st2, TtlInv res cs2 ds2 consumed2 st2 →
      ∀ em ∈ ttlLoop res cs2 ds2 st2, TtlConcl cs2 consumed2 em) :
    ∀ em ∈ (ttlEmit res curT cs2 ds2 st1).1
        ++ ttlLoop res cs2 ds2 (ttlEmit res curT cs2 ds2 st1).2,
      TtlConcl cs2 consumed2 em := by
  have hstep := ttlEmit_emissions res hres curT cs2 ds2 st1
    (entriesOf (consumed2 ++ cs2.take 1)) popped ((cs2.take 1).length : ℤ)
    hsplit1 hpU hpR hcount1
  intro em hem
  rcases List.mem_append.mp hem with hem1 | hem2
  · obtain ⟨hxle, hremC, hremD, hratio, hcnt, hhd, popped2, hsp2, hlt2⟩ :=
      hstep.1 em hem1
    refine ⟨0, popped2, Nat.zero_le _, by simpa using hremC,
      by simpa using hsp2, hlt2, hhd, ?_, ?_, hratio⟩
    · rw [hremC]
      exact hcnt
    · intro e he
      rw [hremC] at he
      exact le_trans hxle (hc1 e he)
  · obtain ⟨popped2, hsp2, hB⟩ := hstep.2.1
    have hbnd2 : ∀ en ∈ popped2, ∀ b ∈ nextBound res cs2 ds2
        (ttlEmit res curT cs2 ds2 st1).2, en.1 < b := by
      intro en hen b hb
      cases res with
      | none =>
        have hcb : curT ≤ b := by
          refine minHead?_lb cs2 ds2 curT hc1 hd1 b ?_
          simpa [nextBound] using hb
        exact hB b hcb
          (fun en2 hen2 => lt_of_lt_of_le (hpU rfl en2 hen2) hcb) en hen
      | some r0 =>
        have hE := hstep.2.2.2.2 r0 rfl
        have hbeq : (ttlEmit (some r0) curT cs2 ds2 st1).2.lastWrite + r0
            = b := by
          simpa [nextBound] using hb
        subst hbeq
        refine hB _ hE.2 (fun en2 hen2 => ?_) en hen
        have := hpR r0 rfl en2 hen2
        linarith [hE.1]
    exact hcont _ ⟨⟨popped2, hsp2, hbnd2⟩, hstep.2.2.1⟩ em hem2

theorem entriesOf_length (l : List CEvent) :
    (entriesOf l).length = l.length := by
  simp [entriesOf]

/-- Master invariant of the TTL loop: on sorted cursors, every emission
satisfies `TtlConcl` (read-entry split, expired popped prefix, unexpired
queue head, `created` bookkeeping). -/
theorem ttlLoop_invariant (res : Option ℚ) (hres : ∀ r0 ∈ res, 0 < r0) :
    ∀ (n : ℕ) (cs : List CEvent) (ds : List DEvent) (consumed : List CEvent)
      (st : TtlSt), cs.length + ds.length ≤ n →
      List.Pairwise (fun a b : CEvent => a.t ≤ b.t) cs →
      List.Pairwise (fun a b : DEvent => a.t ≤ b.t) ds →
      TtlInv res cs ds consumed st →
      ∀ em ∈ ttlLoop res cs ds st, TtlConcl cs consumed em := by
  intro n
  induction n with
  | zero =>
    intro cs ds consumed st hlen hsc hsd hinv em hem
    cases cs with
    | nil =>
      cases ds with
      | nil => simp [ttlLoop] at hem
      | cons d ds2 => simp at hlen
    | cons c cs2 => simp at hlen
  | succ n ih =>
    intro cs ds consumed st hlen hsc hsd hinv em hem
    obtain ⟨⟨popped, hsplit0, hbound0⟩, hcount0⟩ := hinv
    cases cs with
    | nil =>
      cases ds with
      | nil => simp [ttlLoop] at hem
      | cons d ds2 =>
        simp only [ttlLoop] at hem
        have hsplit1 : entriesOf (consumed ++ ([] : List CEvent).take 1)
            = popped
              ++ (pushD { st with delivered := st.delivered + 1 } ds2).queue := by
          rw [pushD_queue]
          exact hsplit0
        have hpU : res = none → ∀ en ∈ popped, en.1 < d.t := by
          intro h0 en hen
          subst h0
          exact hbound0 en hen d.t (by simp [nextBound, minHead?])
        have hpR : ∀ r0, res = some r0 → ∀ en ∈ popped,
            en.1 < (pushD { st with delivered := st.delivered + 1 } ds2).lastWrite
              + r0 := by
          intro r0 h0 en hen
          rw [pushD_lastWrite]
          subst h0
          exact hbound0 en hen _ (by simp [nextBound])
        have hcount1 :
            (pushD { st with delivered := st.delivered + 1 } ds2).created
              = (((pushD { st with delivered := st.delivered + 1 } ds2).queue.length : ℤ))
                - ((([] : List CEvent).take 1).length : ℤ) := by
          rw [pushD_created, pushD_queue]
          simpa using hcount0
        have hd1 : ∀ e ∈ ds2.take 1, d.t ≤ e.t := by
          intro e he
          exact (List.pairwise_cons.mp hsd).1 e (List.take_subset 1 ds2 he)
        have hcont : ∀ st2, TtlInv res [] ds2 consumed st2 →
            ∀ em2 ∈ ttlLoop res [] ds2 st2, TtlConcl [] consumed em2 := by
          intro st2 hinv2 em2 hem2
          exact ih [] ds2 consumed st2 (by simp at hlen ⊢; omega)
            List.Pairwise.nil (List.pairwise_cons.mp hsd).2 hinv2 em2 hem2
        exact ttlIter res hres d.t [] ds2 consumed
          (pushD { st with delivered := st.delivered + 1 } ds2) popped
          hsplit1 hpU hpR hcount1 (by simp) hd1 hcont em hem
    | cons c cs2 =>
      have hc_all : ∀ e ∈ cs2, c.t ≤ e.t := (List.pairwise_cons.mp hsc).1
      have hsc2 := (List.pairwise_cons.mp hsc).2
      have hsplit0' : entriesOf (consumed ++ [c]) = popped ++ st.queue := by
        simpa using hsplit0
      cases ds with
      | nil =>
        simp only [ttlLoop] at hem
        have hsplit1 : entriesOf ((consumed ++ [c]) ++ cs2.take 1)
            = popped
              ++ (pushC { st with created := st.created + 1 } cs2).queue := by
          rw [entriesOf_append, hsplit0', pushC_queue]
          simp [List.append_assoc]
        have hpU : res = none → ∀ en ∈ popped, en.1 < c.t := by
          intro h0 en hen
          subst h0
          exact hbound0 en hen c.t (by simp [nextBound, minHead?])
        have hpR : ∀ r0, res = some r0 → ∀ en ∈ popped,
            en.1 < (pushC { st with created := st.created + 1 } cs2).lastWrite
              + r0 := by
          intro r0 h0 en hen
          rw [pushC_lastWrite]
          subst h0
          exact hbound0 en hen _ (by simp [nextBound])
        have hcount1 :
            (pushC { st with created := st.created + 1 } cs2).created
              = (((pushC { st with created := st.created + 1 } cs2).queue.length : ℤ))
                - ((cs2.take 1).length : ℤ) := by
          rw [pushC_created, pushC_queue]
          simp only [List.length_append, entriesOf_length]
          have h0 : st.created = (st.queue.length : ℤ) - 1 := by
            simpa using hcount0
          push_cast
          omega
        have hc1 : ∀ e ∈ cs2.take 1, c.t ≤ e.t := by
          intro e he
          exact hc_all e (List.take_subset 1 cs2 he)
        have hcont : ∀ st2, TtlInv res cs2 [] (consumed ++ [c]) st2 →
            ∀ em2 ∈ ttlLoop res cs2 [] st2,
              TtlConcl cs2 (consumed ++ [c]) em2 := by
          intro st2 hinv2 em2 hem2
          exact ih cs2 [] (consumed ++ [c]) st2 (by simp at hlen ⊢; omega)
            hsc2 List.Pairwise.nil hinv2 em2 hem2
        exact TtlConcl_shift c cs2 consumed em
          (ttlIter res hres c.t cs2 [] (consumed ++ [c])
            (pushC { st with created := st.created + 1 } cs2) popped
            hsplit1 hpU hpR hcount1 hc1 (by simp) hcont em hem)
      | cons d ds2 =>
        have hd_all : ∀ e ∈ ds2, d.t ≤ e.t := (List.pairwise_cons.mp hsd).1
        have hsd2 := (List.pairwise_cons.mp hsd).2
        by_cases hcd : c.t ≤ d.t
        · simp only [ttlLoop, if_pos hcd] at hem
          have hsplit1 : entriesOf ((consumed ++ [c]) ++ cs2.take 1)
              = popped
                ++ (pushC { st with created := st.created + 1 } cs2).queue := by
            rw [entriesOf_append, hsplit0', pushC_queue]
            simp [List.append_assoc]
          have hpU : res = none → ∀ en ∈ popped, en.1 < min c.t d.t := by
            intro h0 en hen
            subst h0
            exact hbound0 en hen _ (by simp [nextBound, minHead?])
          have hpR : ∀ r0, res = some r0 → ∀ en ∈ popped,
              en.1 < (pushC { st with created := st.created + 1 } cs2).lastWrite
                + r0 := by
            intro r0 h0 en hen
            rw [pushC_lastWrite]
            subst h0
            exact hbound0 en hen _ (by simp [nextBound])
          have hcount1 :
              (pushC { st with created := st.created + 1 } cs2).created
                = (((pushC { st with created := st.created + 1 } cs2).queue.length : ℤ))
                  - ((cs2.take 1).length : ℤ) := by
            rw [pushC_created, pushC_queue]
            simp only [List.length_append, entriesOf_length]
            have h0 : st.created = (st.queue.length : ℤ) - 1 := by
              simpa using hcount0
            push_cast
            omega
          have hc1 : ∀ e ∈ cs2.take 1, min c.t d.t ≤ e.t := by
            intro e he
            exact le_trans (min_le_left _ _) (hc_all e (List.take_subset 1 cs2 he))
          have hd1 : ∀ e ∈ (d :: ds2).take 1, min c.t d.t ≤ e.t := by
            intro e he
            simp only [List.take_succ_cons, List.take_zero,
              List.mem_singleton] at he
            subst he
            exact min_le_right _ _
          have hcont : ∀ st2, TtlInv res cs2 (d :: ds2) (consumed ++ [c]) st2 →
              ∀ em2 ∈ ttlLoop res cs2 (d :: ds2) st2,
                TtlConcl cs2 (consumed ++ [c]) em2 := by
            intro st2 hinv2 em2 hem2
            exact ih cs2 (d :: ds2) (consumed ++ [c]) st2
              (by simp at hlen ⊢; omega) hsc2 hsd hinv2 em2 hem2
          exact TtlConcl_shift c cs2 consumed em
            (ttlIter res hres (min c.t d.t) cs2 (d :: ds2) (consumed ++ [c])
              (pushC { st with created := st.created + 1 } cs2) popped
              hsplit1 hpU hpR hcount1 hc1 hd1 hcont em hem)
        · simp only [ttlLoop, if_neg hcd] at hem
          have hsplit1 : entriesOf (consumed ++ (c :: cs2).take 1)
              = popped
                ++ (pushD { st with delivered := st.delivered + 1 } ds2).queue := by
            rw [pushD_queue]
            exact hsplit0
          have hpU : res = none → ∀ en ∈ popped, en.1 < min c.t d.t := by
            intro h0 en hen
            subst h0
            exact hbound0 en hen _ (by simp [nextBound, minHead?])
          have hpR : ∀ r0, res = some r0 → ∀ en ∈ popped,
              en.1 < (pushD { st with delivered := st.delivered + 1 } ds2).lastWrite
                + r0 := by
            intro r0 h0 en hen
            rw [pushD_lastWrite]
            subst h0
            exact hbound0 en hen _ (by simp [nextBound])
          have hcount1 :
              (pushD { st with delivered := st.delivered + 1 } ds2).created
                = (((pushD { st with delivered := st.delivered + 1 } ds2).queue.length : ℤ))
                  - (((c :: cs2).take 1).length : ℤ) := by
            rw [pushD_created, pushD_queue]
            simpa using hcount0
          have hc1 : ∀ e ∈ (c :: cs2).take 1, min c.t d.t ≤ e.t := by
            intro e he
            simp only [List.take_succ_cons, List.take_zero,
              List.mem_singleton] at he
            subst he
            exact min_le_left _ _
          have hd1 : ∀ e ∈ ds2.take 1, min c.t d.t ≤ e.t := by
            intro e he
            exact le_trans (min_le_right _ _) (hd_all e (List.take_subset 1 ds2 he))
          have hcont : ∀ st2, TtlInv res (c :: cs2) ds2 consumed st2 →
              ∀ em2 ∈ ttlLoop res (c :: cs2) ds2 st2,
                TtlConcl (c :: cs2) consumed em2 := by
            intro st2 hinv2 em2 hem2
            exact ih (c :: cs2) ds2 consumed st2
              (by simp at hlen ⊢; omega) hsc hsd2 hinv2 em2 hem2
          exact ttlIter res hres (min c.t d.t) (c :: cs2) ds2 consumed
            (pushD { st with delivered := st.delivered + 1 } ds2) popped
            hsplit1 hpU hpR hcount1 hc1 hd1 hcont em hem

/-- The invariant holds at loop entry, so every trace emission satisfies
`TtlConcl`. -/
theorem ttlTrace_invariant (res : Option ℚ) (hres : ∀ r0 ∈ res, 0 < r0)
    (cs : List CEvent) (ds : List DEvent)
    (hsc : List.Pairwise (fun a b : CEvent => a.t ≤ b.t) cs)
    (hsd : List.Pairwise (fun a b : DEvent => a.t ≤ b.t) ds) :
    ∀ em ∈ ttlTrace res cs ds, TtlConcl cs [] em := by
  apply ttlLoop_invariant res hres (cs.length + ds.length) cs ds [] _ le_rfl
    hsc hsd
  constructor
  · refine ⟨[], ?_, by simp⟩
    cases cs <;> simp [ttlInit, entriesOf]
  · cases cs <;> simp [ttlInit]

/-- C3 (amended): on timestamp-sorted logs with non-negative TTLs,
`created_count` is never negative at any emission, and whenever
`created_count` is 0 the emitted ratio is the defined sentinel 0 (the
guarded division never aborts).  The claim's further assertions —
`delivered_count` non-negative and ratio within `[0,1]` — are false on the
code (see the counterexample) and are dropped. -/
theorem c3_amended (res : Option ℚ) (hres : ∀ r0 ∈ res, 0 < r0)
    (cs : List CEvent) (ds : List DEvent)
    (hsc : List.Pairwise (fun a b : CEvent => a.t ≤ b.t) cs)
    (hsd : List.Pairwise (fun a b : DEvent => a.t ≤ b.t) ds)
    (httl : ∀ e ∈ cs, 0 ≤ e.ttlMin) :
    ∀ em ∈ ttlTrace res cs ds,
      0 ≤ em.st.created ∧ (em.st.created = 0 → em.ratio = 0) := by
  intro em hem
  obtain ⟨k, popped2, hk, hrem, hent, hlt, hhd, hcnt, hxt, hrat⟩ :=
    ttlTrace_invariant res hres cs ds hsc hsd em hem
  have hratio0 : em.st.created = 0 → em.ratio = 0 := by
    intro h0
    rw [hrat, ratioOf, if_pos h0]
  refine ⟨?_, hratio0⟩
  rcases hq : em.remC with _ | ⟨e, rest⟩
  · rw [hq] at hcnt
    simp only [List.take_nil, List.length_nil, Nat.cast_zero, sub_zero] at hcnt
    rw [hcnt]
    positivity
  · have he1 : e ∈ em.remC.take 1 := by rw [hq]; simp
    have het : em.x ≤ e.t := hxt e he1
    have hecs : e ∈ cs := by
      have h1 : e ∈ cs.drop k := by rw [← hrem, hq]; simp
      exact List.drop_subset k cs h1
    have hexpx : em.x ≤ e.expiry := by
      have := httl e hecs
      have h60 : (0 : ℚ) ≤ e.ttlMin * 60 := by positivity
      unfold CEvent.expiry
      linarith
    have hqne : em.st.queue ≠ [] := by
      intro hq0
      have hmem : (e.expiry, e.id) ∈ popped2 := by
        have h1 : (e.expiry, e.id)
            ∈ entriesOf (([] ++ cs.take k) ++ (cs.drop k).take 1) := by
          rw [← hrem, hq]
          simp [entriesOf]
        rw [hent, hq0, List.append_nil] at h1
        exact h1
      have := hlt _ hmem
      simp only at this
      linarith
    have hlen1 : 1 ≤ em.st.queue.length := by
      cases hqq : em.st.queue with
      | nil => exact absurd hqq hqne
      | cons a l => simp
    rw [hcnt, hq]
    simp only [List.take_succ_cons, List.take_zero, List.length_cons,
      List.length_nil]
    push_cast
    omega

/-- C3 amended, applied at a concrete sorted input with non-negative TTLs. -/
theorem c3_amended_witness :
    List.Pairwise (fun a b : CEvent => a.t ≤ b.t)
      [CEvent.mk 0 "A" 1, CEvent.mk 5 "C" 10] ∧
    (∀ em ∈ ttlTrace none [CEvent.mk 0 "A" 1, CEvent.mk 5 "C" 10]
        [DEvent.mk 10 "A"],
      0 ≤ em.st.created ∧ (em.st.created = 0 → em.ratio = 0)) :=
  ⟨by norm_num [List.pairwise_cons],
   c3_amended none (by simp) _ _ (by norm_num [List.pairwise_cons])
     (by norm_num [List.pairwise_cons]) (by norm_num)⟩

/-- C2 (amended): in both modes, on timestamp-sorted logs with non-negative
TTLs whose expiry times (`creation_time + 60*ttl`, TTL from field 5 in
minutes) are non-decreasing in creation order, at every emission at abscissa
`x` the maintained `created_count` equals the number of creation events
consumed so far whose expiry is `≥ x` (i.e. `creation_time ≤ ... `, with the
boundary kept, not strict, and counting consumed events rather than all
events with `creation_time ≤ x`); the claimed `delivered_count ≤
created_count` is false on the code (see the counterexample) and is
dropped. -/
theorem c2_amended (res : Option ℚ) (hres : ∀ r0 ∈ res, 0 < r0)
    (cs : List CEvent) (ds : List DEvent)
    (hsc : List.Pairwise (fun a b : CEvent => a.t ≤ b.t) cs)
    (hsd : List.Pairwise (fun a b : DEvent => a.t ≤ b.t) ds)
    (httl : ∀ e ∈ cs, 0 ≤ e.ttlMin)
    (hexp : List.Pairwise (fun a b : CEvent => a.expiry ≤ b.expiry) cs) :
    ∀ em ∈ ttlTrace res cs ds,
      em.st.created =
        (((cs.take (cs.length - em.remC.length)).filter
          (fun e => !decide (e.expiry < em.x))).length : ℤ) := by
  intro em hem
  obtain ⟨k, popped2, hk, hrem, hent, hlt, hhd, hcnt, hxt, hrat⟩ :=
    ttlTrace_invariant res hres cs ds hsc hsd em hem
  have hkk : cs.length - em.remC.length = k := by
    rw [hrem, List.length_drop]
    omega
  rw [hkk]
  rw [List.nil_append] at hent
  rw [← List.take_add] at hent
  have hsortR : List.Pairwise (fun a b : ℚ × String => a.1 ≤ b.1)
      (entriesOf (cs.take (k + 1))) := by
    have h1 : List.Pairwise (fun a b : CEvent => a.expiry ≤ b.expiry)
        (cs.take (k + 1)) := hexp.sublist (List.take_sublist _ _)
    unfold entriesOf
    exact List.pairwise_map.mpr h1
  have hqsorted : List.Pairwise (fun a b : ℚ × String => a.1 ≤ b.1)
      em.st.queue := by
    rw [hent] at hsortR
    exact (List.pairwise_append.mp hsortR).2.1
  have hqge : ∀ en ∈ em.st.queue, ¬ en.1 < em.x := by
    intro en hen
    cases hqq : em.st.queue with
    | nil => rw [hqq] at hen; simp at hen
    | cons hd tl =>
      have hhd0 : ¬ hd.1 < em.x := hhd hd (by rw [hqq]; rfl)
      rw [hqq] at hen
      rcases List.mem_cons.mp hen with rfl | htl
      · exact hhd0
      · have hle : hd.1 ≤ en.1 := by
          rw [hqq] at hqsorted
          exact (List.pairwise_cons.mp hqsorted).1 en htl
        intro hcon
        exact hhd0 (lt_of_le_of_lt hle hcon)
  have hfilter : (entriesOf (cs.take (k + 1))).filter
      (fun en => !decide (en.1 < em.x)) = em.st.queue := by
    rw [hent, List.filter_append]
    rw [List.filter_eq_nil.mpr (by intro a ha; simpa using hlt a ha),
      List.filter_eq_self.mpr (by intro b hb; simpa using hqge b hb)]
    simp
  have hflen : ((cs.take (k + 1)).filter
      (fun e => !decide (e.expiry < em.x))).length
      = em.st.queue.length := by
    rw [← hfilter]
    show ((cs.take (k + 1)).filter (fun e => !decide (e.expiry < em.x))).length
      = (((cs.take (k + 1)).map (fun e => (e.expiry, e.id))).filter
        (fun en => !decide (en.1 < em.x))).length
    rw [List.filter_map, List.length_map]
    rfl
  have hsplit2 : (cs.take (k + 1)).filter (fun e => !decide (e.expiry < em.x))
      = (cs.take k).filter (fun e => !decide (e.expiry < em.x))
        ++ ((cs.drop k).take 1).filter (fun e => !decide (e.expiry < em.x)) := by
    rw [List.take_add, List.filter_append]
  rcases hq : em.remC with _ | ⟨e, rest⟩
  · have hdk : cs.drop k = [] := by rw [← hrem, hq]
    have hlek : cs.length ≤ k := List.drop_eq_nil_iff_le.mp hdk
    have htk : cs.take (k + 1) = cs.take k := by
      rw [List.take_of_length_le hlek, List.take_of_length_le (by omega)]
    rw [hq] at hcnt
    simp only [List.take_nil, List.length_nil, Nat.cast_zero, sub_zero] at hcnt
    rw [hcnt, ← hflen, htk]
  · have hdk : cs.drop k = e :: rest := by rw [← hrem, hq]
    have he1 : e ∈ em.remC.take 1 := by rw [hq]; simp
    have het : em.x ≤ e.t := hxt e he1
    have hecs : e ∈ cs := List.drop_subset k cs (by rw [hdk]; simp)
    have hexpx : em.x ≤ e.expiry := by
      have h1 := httl e hecs
      have h60 : (0 : ℚ) ≤ e.ttlMin * 60 := by positivity
      unfold CEvent.expiry
      linarith
    have hfe : ((cs.drop k).take 1).filter
        (fun e2 => !decide (e2.expiry < em.x)) = [e] := by
      rw [hdk]
      simp only [List.take_succ_cons, List.take_zero]
      rw [List.filter_eq_self.mpr]
      intro b hb
      simp only [List.mem_singleton] at hb
      subst hb
      simpa using not_lt.mpr hexpx
    rw [hq] at hcnt
    simp only [List.take_succ_cons, List.take_zero, List.length_cons,
      List.length_nil] at hcnt
    have hlen2 : ((cs.take (k + 1)).filter
        (fun e2 => !decide (e2.expiry < em.x))).length
        = ((cs.take k).filter (fun e2 => !decide (e2.expiry < em.x))).length
          + 1 := by
      rw [hsplit2, hfe, List.length_append, List.length_singleton]
    rw [hcnt]
    omega

/-- C2 amended, applied at a concrete sorted input with non-decreasing
expiries. -/
theorem c2_amended_witness :
    (∀ e ∈ [CEvent.mk 0 "A" 1, CEvent.mk 60 "B" 1], 0 ≤ e.ttlMin) ∧
    (∀ em ∈ ttlTrace none [CEvent.mk 0 "A" 1, CEvent.mk 60 "B" 1] [],
      em.st.created =
        ((([CEvent.mk 0 "A" 1, CEvent.mk 60 "B" 1].take
            ([CEvent.mk 0 "A" 1,
              CEvent.mk 60 "B" 1].length - em.remC.length)).filter
          (fun e => !decide (e.expiry < em.x))).length : ℤ)) :=
  ⟨by norm_num,
   c2_amended none (by simp) _ _ (by norm_num [List.pairwise_cons])
     (by simp) (by norm_num)
     (by norm_num [List.pairwise_cons, CEvent.expiry])⟩

/-- The abscissas written by the grid walk are exactly the grid points. -/
theorem ttlGrid_xs (remC : List CEvent) (remD : List DEvent) :
    ∀ (pts : List ℚ) (st : TtlSt),
      ((ttlGrid remC remD pts st).1).map Emission.x = pts := by
  intro pts
  induction pts with
  | nil => intro st; simp [ttlGrid]
  | cons p ps ih => intro st; simp [ttlGrid, ih]

theorem multsFrom_zero (r : ℚ) (a : ℕ) : multsFrom r a 0 = [] := by
  simp [multsFrom]

theorem multsFrom_succ_cons (r : ℚ) (a k : ℕ) :
    multsFrom r a (k + 1) = ((a + 1 : ℕ) : ℚ) * r :: multsFrom r (a + 1) k := by
  unfold multsFrom
  rw [List.range_succ_eq_map]
  simp only [List.map_cons, List.map_map]
  congr 1
  apply List.map_congr_left
  intro i hi
  simp only [Function.comp_apply]
  push_cast
  ring

theorem multsFrom_append (r : ℚ) (k1 : ℕ) :
    ∀ (a k2 : ℕ),
      multsFrom r a k1 ++ multsFrom r (a + k1) k2 = multsFrom r a (k1 + k2) := by
  induction k1 with
  | zero => intro a k2; simp [multsFrom_zero]
  | succ k ih =>
    intro a k2
    rw [multsFrom_succ_cons]
    rw [show a + (k + 1) = (a + 1) + k by omega]
    rw [List.cons_append, ih]
    rw [show k + 1 + k2 = (k + k2) + 1 by omega]
    rw [multsFrom_succ_cons]

theorem multsFrom_mem (r : ℚ) (a K i : ℕ) (h : i < K) :
    ((a + i + 1 : ℕ) : ℚ) * r ∈ multsFrom r a K := by
  unfold multsFrom
  exact List.mem_map.mpr ⟨i, List.mem_range.mpr h, rfl⟩

/-- Starting from a grid-aligned `last_write = a*r`, the grid points are the
consecutive multiples `(a+1)*r, …, (a+kk)*r`, and the final `last_write`
is `(a+kk)*r`. -/
theorem gridPts_mults (r : ℚ) (hr : 0 < r) :
    ∀ (n : ℕ) (a : ℕ) (curT : ℚ),
      (Int.ceil ((curT - (a : ℚ) * r) / r)).toNat ≤ n →
      ∃ kk, gridPts r ((a : ℚ) * r) curT = multsFrom r a kk ∧
        (gridPts r ((a : ℚ) * r) curT).getLast?.getD ((a : ℚ) * r)
          = ((a + kk : ℕ) : ℚ) * r := by
  intro n
  induction n with
  | zero =>
    intro a curT hn
    rw [gridPts]
    split
    · rename_i h
      exfalso
      have h1 : (1 : ℚ) < (curT - (a : ℚ) * r) / r := by
        rw [lt_div_iff hr]; linarith [h.2]
      have : (1 : ℤ) < Int.ceil ((curT - (a : ℚ) * r) / r) := by
        exact_mod_cast Int.lt_ceil.mpr (by exact_mod_cast h1)
      omega
    · exact ⟨0, by simp [multsFrom_zero], by simp⟩
  | succ n ih =>
    intro a curT hn
    rw [gridPts]
    split
    · rename_i h
      have hste : (a : ℚ) * r + r = ((a + 1 : ℕ) : ℚ) * r := by
        push_cast; ring
      have hmeas : (Int.ceil ((curT - ((a + 1 : ℕ) : ℚ) * r) / r)).toNat
          ≤ n := by
        have h1 : (1 : ℚ) < (curT - (a : ℚ) * r) / r := by
          rw [lt_div_iff hr]; linarith [h.2]
        have hc1 : (1 : ℤ) < Int.ceil ((curT - (a : ℚ) * r) / r) := by
          exact_mod_cast Int.lt_ceil.mpr (by exact_mod_cast h1)
        have hsub : (curT - ((a + 1 : ℕ) : ℚ) * r) / r
            = (curT - (a : ℚ) * r) / r - 1 := by
          push_cast
          field_simp
          ring
        have hstep : Int.ceil ((curT - ((a + 1 : ℕ) : ℚ) * r) / r)
            = Int.ceil ((curT - (a : ℚ) * r) / r) - 1 := by
          rw [hsub, Int.ceil_sub_one]
        omega
      obtain ⟨kk, hg, hl⟩ := ih (a + 1) curT hmeas
      rw [hg] at hl
      rw [hste, hg]
      refine ⟨kk + 1, by rw [multsFrom_succ_cons], ?_⟩
      cases hm : multsFrom r (a + 1) kk with
      | nil =>
        have hkk : kk = 0 := by
          have := congrArg List.length hm
          simpa [multsFrom] using this
        subst hkk
        simp only [List.getLast?_singleton, Option.getD_some]
      | cons q qs =>
        rw [hm] at hl
        rw [List.getLast?_cons_cons]
        cases hgl : (q :: qs).getLast? with
        | none =>
          rw [List.getLast?_eq_none_iff] at hgl
          exact absurd hgl (by simp)
        | some x =>
          rw [hgl] at hl
          simp only [Option.getD_some] at hl ⊢
          rw [hl]
          push_cast
          ring
    · rename_i h
      push_neg at h
      have h2 := h hr
      exact ⟨0, by simp [multsFrom_zero], by simp⟩

theorem timesOf_cons_c (c : CEvent) (cs : List CEvent) (ds : List DEvent) :
    timesOf (c :: cs) ds = c.t :: timesOf cs ds := by
  simp [timesOf]

theorem timesOf_subset_d (cs : List CEvent) (d : DEvent) (ds : List DEvent) :
    ∀ x ∈ timesOf cs ds, x ∈ timesOf cs (d :: ds) := by
  intro x hx
  simp only [timesOf, List.mem_append, List.mem_map] at hx ⊢
  rcases hx with h | h
  · exact Or.inl h
  · exact Or.inr (by simpa using Or.inr h)

theorem timesOf_mem_d (cs : List CEvent) (d : DEvent) (ds : List DEvent) :
    d.t ∈ timesOf cs (d :: ds) := by
  simp [timesOf]

/-- Multiples of a positive `r` are monotone in the multiplier. -/
theorem mult_le_mult_nat (r : ℚ) (hr : 0 < r) (m k : ℕ) :
    ((m : ℕ) : ℚ) * r ≤ ((m + k : ℕ) : ℚ) * r := by
  have : ((m : ℕ) : ℚ) ≤ ((m + k : ℕ) : ℚ) := by push_cast; linarith [Nat.cast_nonneg (α := ℚ) k]
  exact mul_le_mul_of_nonneg_right this (le_of_lt hr)

/-- Shape of the resampled TTL trace: starting from a grid-aligned
`last_write = a*r`, the emitted abscissas are the consecutive multiples
`(a+1)*r, …, (a+K)*r`; every event timestamp is at most the final
`last_write + r` (no grid point below it is missed); and every emitted
abscissa is strictly below some event timestamp. -/
theorem ttlLoop_grid (r : ℚ) (hr : 0 < r) :
    ∀ (n : ℕ) (cs : List CEvent) (ds : List DEvent) (st : TtlSt) (a : ℕ),
      cs.length + ds.length ≤ n →
      List.Pairwise (fun x y : CEvent => x.t ≤ y.t) cs →
      List.Pairwise (fun x y : DEvent => x.t ≤ y.t) ds →
      st.lastWrite = (a : ℚ) * r →
      ∃ K, (ttlLoop (some r) cs ds st).map Emission.x = multsFrom r a K ∧
        (∀ te ∈ timesOf cs ds, te ≤ ((a + K : ℕ) : ℚ) * r + r) ∧
        (∀ x ∈ (ttlLoop (some r) cs ds st).map Emission.x,
          ∃ te ∈ timesOf cs ds, x < te) := by
  intro n
  induction n with
  | zero =>
    intro cs ds st a hlen hsc hsd hlw
    cases cs with
    | nil =>
      cases ds with
      | nil =>
        exact ⟨0, by simp [ttlLoop, multsFrom_zero],
          by simp [timesOf], by simp [ttlLoop]⟩
      | cons d ds2 => simp at hlen
    | cons c cs2 => simp at hlen
  | succ n ih =>
    intro cs ds st a hlen hsc hsd hlw
    cases cs with
    | nil =>
      cases ds with
      | nil =>
        exact ⟨0, by simp [ttlLoop, multsFrom_zero],
          by simp [timesOf], by simp [ttlLoop]⟩
      | cons d ds2 =>
        have hlw1 : (pushD { st with delivered := st.delivered + 1 } ds2).lastWrite
            = (a : ℚ) * r := by rw [pushD_lastWrite]; exact hlw
        obtain ⟨kk, hgm, hgl⟩ := gridPts_mults r hr _ a d.t le_rfl
        have hxs1 : ((ttlEmit (some r) d.t [] ds2
            (pushD { st with delivered := st.delivered + 1 } ds2)).1).map
              Emission.x = multsFrom r a kk := by
          simp only [ttlEmit]
          rw [ttlGrid_xs, hlw1]
          exact hgm
        have hlw2 : (ttlEmit (some r) d.t [] ds2
            (pushD { st with delivered := st.delivered + 1 } ds2)).2.lastWrite
            = ((a + kk : ℕ) : ℚ) * r := by
          simp only [ttlEmit]
          rw [ttlGrid_final, hlw1]
          exact hgl
        have hexit : d.t ≤ ((a + kk : ℕ) : ℚ) * r + r := by
          have h1 := gridPts_exit r hr _ ((a : ℚ) * r) d.t le_rfl
          rw [hgl] at h1
          exact h1
        obtain ⟨K2, hxs2, hcomp2, hbnd2⟩ := ih [] ds2 _ (a + kk)
          (by simp at hlen ⊢; omega) List.Pairwise.nil
          (List.pairwise_cons.mp hsd).2 hlw2
        have hshift : ∀ te0 : ℚ, te0 ≤ ((a + kk + K2 : ℕ) : ℚ) * r + r →
            te0 ≤ ((a + (kk + K2) : ℕ) : ℚ) * r + r := by
          intro te0 h1
          rw [show a + (kk + K2) = a + kk + K2 by omega]
          exact h1
        refine ⟨kk + K2, ?_, ?_, ?_⟩
        · simp only [ttlLoop, List.map_append]
          rw [hxs1, hxs2, multsFrom_append]
        · intro te hte
          simp only [timesOf, List.map_nil, List.nil_append, List.map_cons,
            List.mem_cons] at hte
          rcases hte with rfl | hte2
          · refine hshift _ ?_
            have h2 := mult_le_mult_nat r hr (a + kk) K2
            linarith
          · refine hshift _ ?_
            exact hcomp2 te (by simpa [timesOf] using hte2)
        · intro x hx
          simp only [ttlLoop, List.map_append, List.mem_append] at hx
          rcases hx with h | h
          · rw [hxs1] at h
            have hx2 : x ∈ gridPts r ((a : ℚ) * r) d.t := by
              rw [hgm]; exact h
            exact ⟨d.t, timesOf_mem_d [] d ds2,
              (gridPts_mem' r ((a : ℚ) * r) d.t x hx2).2⟩
          · obtain ⟨te, hte, hlt⟩ := hbnd2 x h
            exact ⟨te, timesOf_subset_d [] d ds2 te hte, hlt⟩
    | cons c cs2 =>
      have hsc2 := (List.pairwise_cons.mp hsc).2
      cases ds with
      | nil =>
        have hlw1 : (pushC { st with created := st.created + 1 } cs2).lastWrite
            = (a : ℚ) * r := by rw [pushC_lastWrite]; exact hlw
        obtain ⟨kk, hgm, hgl⟩ := gridPts_mults r hr _ a c.t le_rfl
        have hxs1 : ((ttlEmit (some r) c.t cs2 []
            (pushC { st with created := st.created + 1 } cs2)).1).map
              Emission.x = multsFrom r a kk := by
          simp only [ttlEmit]
          rw [ttlGrid_xs, hlw1]
          exact hgm
        have hlw2 : (ttlEmit (some r) c.t cs2 []
            (pushC { st with created := st.created + 1 } cs2)).2.lastWrite
            = ((a + kk : ℕ) : ℚ) * r := by
          simp only [ttlEmit]
          rw [ttlGrid_final, hlw1]
          exact hgl
        have hexit : c.t ≤ ((a + kk : ℕ) : ℚ) * r + r := by
          have h1 := gridPts_exit r hr _ ((a : ℚ) * r) c.t le_rfl
          rw [hgl] at h1
          exact h1
        obtain ⟨K2, hxs2, hcomp2, hbnd2⟩ := ih cs2 [] _ (a + kk)
          (by simp at hlen ⊢; omega) hsc2 List.Pairwise.nil hlw2
        have hshift : ∀ te0 : ℚ, te0 ≤ ((a + kk + K2 : ℕ) : ℚ) * r + r →
            te0 ≤ ((a + (kk + K2) : ℕ) : ℚ) * r + r := by
          intro te0 h1
          rw [show a + (kk + K2) = a + kk + K2 by omega]
          exact h1
        refine ⟨kk + K2, ?_, ?_, ?_⟩
        · simp only [ttlLoop, List.map_append]
          rw [hxs1, hxs2, multsFrom_append]
        · intro te hte
          rw [timesOf_cons_c] at hte
          rcases List.mem_cons.mp hte with rfl | hte2
          · refine hshift _ ?_
            have h2 := mult_le_mult_nat r hr (a + kk) K2
            linarith
          · refine hshift _ ?_
            exact hcomp2 te hte2
        · intro x hx
          simp only [ttlLoop, List.map_append, List.mem_append] at hx
          rcases hx with h | h
          · rw [hxs1] at h
            have hx2 : x ∈ gridPts r ((a : ℚ) * r) c.t := by
              rw [hgm]; exact h
            exact ⟨c.t, by rw [timesOf_cons_c]; exact List.mem_cons_self _ _,
              (gridPts_mem' r ((a : ℚ) * r) c.t x hx2).2⟩
          · obtain ⟨te, hte, hlt⟩ := hbnd2 x h
            refine ⟨te, ?_, hlt⟩
            rw [timesOf_cons_c]
            exact List.mem_cons_of_mem _ hte
      | cons d ds2 =>
        have hsd2 := (List.pairwise_cons.mp hsd).2
        by_cases hcd : c.t ≤ d.t
        · have hlw1 : (pushC { st with created := st.created + 1 } cs2).lastWrite
              = (a : ℚ) * r := by rw [pushC_lastWrite]; exact hlw
          obtain ⟨kk, hgm, hgl⟩ := gridPts_mults r hr _ a (min c.t d.t) le_rfl
          have hxs1 : ((ttlEmit (some r) (min c.t d.t) cs2 (d :: ds2)
              (pushC { st with created := st.created + 1 } cs2)).1).map
                Emission.x = multsFrom r a kk := by
            simp only [ttlEmit]
            rw [ttlGrid_xs, hlw1]
            exact hgm
          have hlw2 : (ttlEmit (some r) (min c.t d.t) cs2 (d :: ds2)
              (pushC { st with created := st.created + 1 } cs2)).2.lastWrite
              = ((a + kk : ℕ) : ℚ) * r := by
            simp only [ttlEmit]
            rw [ttlGrid_final, hlw1]
            exact hgl
          have hexit : min c.t d.t ≤ ((a + kk : ℕ) : ℚ) * r + r := by
            have h1 := gridPts_exit r hr _ ((a : ℚ) * r) (min c.t d.t) le_rfl
            rw [hgl] at h1
            exact h1
          obtain ⟨K2, hxs2, hcomp2, hbnd2⟩ := ih cs2 (d :: ds2) _ (a + kk)
            (by simp at hlen ⊢; omega) hsc2 hsd hlw2
          have hshift : ∀ te0 : ℚ, te0 ≤ ((a + kk + K2 : ℕ) : ℚ) * r + r →
              te0 ≤ ((a + (kk + K2) : ℕ) : ℚ) * r + r := by
            intro te0 h1
            rw [show a + (kk + K2) = a + kk + K2 by omega]
            exact h1
          refine ⟨kk + K2, ?_, ?_, ?_⟩
          · simp only [ttlLoop, if_pos hcd, List.map_append]
            rw [hxs1, hxs2, multsFrom_append]
          · intro te hte
            rw [timesOf_cons_c] at hte
            rcases List.mem_cons.mp hte with rfl | hte2
            · refine hshift _ ?_
              rw [min_eq_left hcd] at hexit
              have h2 := mult_le_mult_nat r hr (a + kk) K2
              linarith
            · refine hshift _ ?_
              exact hcomp2 te hte2
          · intro x hx
            simp only [ttlLoop, if_pos hcd, List.map_append,
              List.mem_append] at hx
            rcases hx with h | h
            · rw [hxs1] at h
              have hx2 : x ∈ gridPts r ((a : ℚ) * r) (min c.t d.t) := by
                rw [hgm]; exact h
              refine ⟨c.t, by rw [timesOf_cons_c]; exact List.mem_cons_self _ _, ?_⟩
              exact lt_of_lt_of_le
                (gridPts_mem' r ((a : ℚ) * r) (min c.t d.t) x hx2).2
                (min_le_left _ _)
            · obtain ⟨te, hte, hlt⟩ := hbnd2 x h
              refine ⟨te, ?_, hlt⟩
              rw [timesOf_cons_c]
              exact List.mem_cons_of_mem _ hte
        · have hlw1 : (pushD { st with delivered := st.delivered + 1 } ds2).lastWrite
              = (a : ℚ) * r := by rw [pushD_lastWrite]; exact hlw
          obtain ⟨kk, hgm, hgl⟩ := gridPts_mults r hr _ a (min c.t d.t) le_rfl
          have hxs1 : ((ttlEmit (some r) (min c.t d.t) (c :: cs2) ds2
              (pushD { st with delivered := st.delivered + 1 } ds2)).1).map
                Emission.x = multsFrom r a kk := by
            simp only [ttlEmit]
            rw [ttlGrid_xs, hlw1]
            exact hgm
          have hlw2 : (ttlEmit (some r) (min c.t d.t) (c :: cs2) ds2
              (pushD { st with delivered := st.delivered + 1 } ds2)).2.lastWrite
              = ((a + kk : ℕ) : ℚ) * r := by
            simp only [ttlEmit]
            rw [ttlGrid_final, hlw1]
            exact hgl
          have hexit : min c.t d.t ≤ ((a + kk : ℕ) : ℚ) * r + r := by
            have h1 := gridPts_exit r hr _ ((a : ℚ) * r) (min c.t d.t) le_rfl
            rw [hgl] at h1
            exact h1
          obtain ⟨K2, hxs2, hcomp2, hbnd2⟩ := ih (c :: cs2) ds2 _ (a + kk)
            (by simp at hlen ⊢; omega) hsc hsd2 hlw2
          have hshift : ∀ te0 : ℚ, te0 ≤ ((a + kk + K2 : ℕ) : ℚ) * r + r →
              te0 ≤ ((a + (kk + K2) : ℕ) : ℚ) * r + r := by
            intro te0 h1
            rw [show a + (kk + K2) = a + kk + K2 by omega]
            exact h1
          refine ⟨kk + K2, ?_, ?_, ?_⟩
          · simp only [ttlLoop, if_neg hcd, List.map_append]
            rw [hxs1, hxs2, multsFrom_append]
          · intro te hte
            have hmem2 : te = d.t ∨ te ∈ timesOf (c :: cs2) ds2 := by
              simp only [timesOf, List.mem_append, List.mem_map,
                List.mem_cons] at hte ⊢
              rcases hte with h | h
              · exact Or.inr (Or.inl h)
              · obtain ⟨e, he, rfl⟩ := h
                rcases he with rfl | he2
                · exact Or.inl rfl
                · exact Or.inr (Or.inr ⟨e, he2, rfl⟩)
            rcases hmem2 with rfl | hte2
            · refine hshift _ ?_
              rw [min_eq_right (le_of_not_le hcd)] at hexit
              have h2 := mult_le_mult_nat r hr (a + kk) K2
              linarith
            · refine hshift _ ?_
              exact hcomp2 te hte2
          · intro x hx
            simp only [ttlLoop, if_neg hcd, List.map_append,
              List.mem_append] at hx
            rcases hx with h | h
            · rw [hxs1] at h
              have hx2 : x ∈ gridPts r ((a : ℚ) * r) (min c.t d.t) := by
                rw [hgm]; exact h
              refine ⟨d.t, timesOf_mem_d (c :: cs2) d ds2, ?_⟩
              exact lt_of_lt_of_le
                (gridPts_mem' r ((a : ℚ) * r) (min c.t d.t) x hx2).2
                (min_le_right _ _)
            · obtain ⟨te, hte, hlt⟩ := hbnd2 x h
              exact ⟨te, timesOf_subset_d (c :: cs2) d ds2 te hte, hlt⟩

/-- Shape of the resampled simple-mode output, when the run completes
without a `ZeroDivisionError`: same grid characterisation as the TTL
mode. -/
theorem simpleLoop_grid (r : ℚ) (hr : 0 < r) :
    ∀ (n : ℕ) (cs ds : List ℚ) (c d : ℕ) (lw : ℚ) (a : ℕ)
      (out : List (ℚ × ℚ)),
      cs.length + ds.length ≤ n →
      List.Pairwise (fun x y : ℚ => x ≤ y) cs →
      List.Pairwise (fun x y : ℚ => x ≤ y) ds →
      lw = (a : ℚ) * r →
      simpleLoop (some r) cs ds c d lw = .ok out →
      ∃ K, out.map Prod.fst = multsFrom r a K ∧
        (∀ te ∈ cs ++ ds, te ≤ ((a + K : ℕ) : ℚ) * r + r) ∧
        (∀ x ∈ out.map Prod.fst, ∃ te ∈ cs ++ ds, x < te) := by
  intro n
  induction n with
  | zero =>
    intro cs ds c d lw a out hlen hsc hsd hlw hok
    cases cs with
    | nil =>
      cases ds with
      | nil =>
        simp only [simpleLoop, Except.ok.injEq] at hok
        subst hok
        exact ⟨0, by simp [multsFrom_zero], by simp, by simp⟩
      | cons dt ds2 => simp at hlen
    | cons ct cs2 => simp at hlen
  | succ n ih =>
    intro cs ds c d lw a out hlen hsc hsd hlw hok
    cases cs with
    | nil =>
      cases ds with
      | nil =>
        simp only [simpleLoop, Except.ok.injEq] at hok
        subst hok
        exact ⟨0, by simp [multsFrom_zero], by simp, by simp⟩
      | cons dt ds2 =>
        cases hrat : simpleRatio (d + 1) c with
        | error e =>
          simp only [simpleLoop, hrat, bind, Except.bind] at hok
          exact Except.noConfusion hok
        | ok ratio =>
          cases hrec : simpleLoop (some r) [] ds2 c (d + 1)
              (simpleEmit (some r) dt ratio lw).2 with
          | error e =>
            simp only [simpleLoop, hrat, hrec, bind, Except.bind] at hok
            exact Except.noConfusion hok
          | ok rest =>
            simp only [simpleLoop, hrat, hrec, bind, Except.bind,
              Except.ok.injEq] at hok
            subst hok
            obtain ⟨kk, hgm, hgl⟩ := gridPts_mults r hr _ a dt le_rfl
            rw [hlw] at hrec
            have hlw2 : (simpleEmit (some r) dt ratio ((a : ℚ) * r)).2
                = ((a + kk : ℕ) : ℚ) * r := by
              simp only [simpleEmit]
              rw [hgl]
            rw [hlw2] at hrec
            have hexit : dt ≤ ((a + kk : ℕ) : ℚ) * r + r := by
              have h1 := gridPts_exit r hr _ ((a : ℚ) * r) dt le_rfl
              rw [hgl] at h1
              exact h1
            obtain ⟨K2, hxs2, hcomp2, hbnd2⟩ := ih [] ds2 c (d + 1) _ (a + kk)
              rest (by simp at hlen ⊢; omega) List.Pairwise.nil
              (List.pairwise_cons.mp hsd).2 rfl hrec
            have hshift : ∀ te0 : ℚ, te0 ≤ ((a + kk + K2 : ℕ) : ℚ) * r + r →
                te0 ≤ ((a + (kk + K2) : ℕ) : ℚ) * r + r := by
              intro te0 h1
              rw [show a + (kk + K2) = a + kk + K2 by omega]
              exact h1
            have hxs1 : ((simpleEmit (some r) dt ratio lw).1).map Prod.fst
                = multsFrom r a kk := by
              simp only [simpleEmit]
              rw [List.map_map]
              rw [hlw]
              simpa [Function.comp_def] using hgm
            refine ⟨kk + K2, ?_, ?_, ?_⟩
            · rw [List.map_append, hxs1, hxs2, multsFrom_append]
            · intro te hte
              simp only [List.nil_append, List.mem_cons] at hte
              rcases hte with rfl | hte2
              · refine hshift _ ?_
                have h2 := mult_le_mult_nat r hr (a + kk) K2
                linarith
              · refine hshift _ ?_
                exact hcomp2 te (by simpa using hte2)
            · intro x hx
              rw [List.map_append, List.mem_append] at hx
              rcases hx with h | h
              · rw [hxs1] at h
                have hx2 : x ∈ gridPts r ((a : ℚ) * r) dt := by
                  rw [hgm]; exact h
                exact ⟨dt, by simp,
                  (gridPts_mem' r ((a : ℚ) * r) dt x hx2).2⟩
              · obtain ⟨te, hte, hlt⟩ := hbnd2 x h
                exact ⟨te, by simp at hte ⊢; exact Or.inr hte, hlt⟩
    | cons ct cs2 =>
      have hsc2 := (List.pairwise_cons.mp hsc).2
      cases ds with
      | nil =>
        cases hrat : simpleRatio d (c + 1) with
        | error e =>
          simp only [simpleLoop, hrat, bind, Except.bind] at hok
          exact Except.noConfusion hok
        | ok ratio =>
          cases hrec : simpleLoop (some r) cs2 [] (c + 1) d
              (simpleEmit (some r) ct ratio lw).2 with
          | error e =>
            simp only [simpleLoop, hrat, hrec, bind, Except.bind] at hok
            exact Except.noConfusion hok
          | ok rest =>
            simp only [simpleLoop, hrat, hrec, bind, Except.bind,
              Except.ok.injEq] at hok
            subst hok
            obtain ⟨kk, hgm, hgl⟩ := gridPts_mults r hr _ a ct le_rfl
            rw [hlw] at hrec
            have hlw2 : (simpleEmit (some r) ct ratio ((a : ℚ) * r)).2
                = ((a + kk : ℕ) : ℚ) * r := by
              simp only [simpleEmit]
              rw [hgl]
            rw [hlw2] at hrec
            have hexit : ct ≤ ((a + kk : ℕ) : ℚ) * r + r := by
              have h1 := gridPts_exit r hr _ ((a : ℚ) * r) ct le_rfl
              rw [hgl] at h1
              exact h1
            obtain ⟨K2, hxs2, hcomp2, hbnd2⟩ := ih cs2 [] (c + 1) d _ (a + kk)
              rest (by simp at hlen ⊢; omega) hsc2 List.Pairwise.nil rfl hrec
            have hshift : ∀ te0 : ℚ, te0 ≤ ((a + kk + K2 : ℕ) : ℚ) * r + r →
                te0 ≤ ((a + (kk + K2) : ℕ) : ℚ) * r + r := by
              intro te0 h1
              rw [show a + (kk + K2) = a + kk + K2 by omega]
              exact h1
            have hxs1 : ((simpleEmit (some r) ct ratio lw).1).map Prod.fst
                = multsFrom r a kk := by
              simp only [simpleEmit]
              rw [List.map_map]
              rw [hlw]
              simpa [Function.comp_def] using hgm
            refine ⟨kk + K2, ?_, ?_, ?_⟩
            · rw [List.map_append, hxs1, hxs2, multsFrom_append]
            · intro te hte
              simp only [List.append_nil, List.mem_cons] at hte
              rcases hte with rfl | hte2
              · refine hshift _ ?_
                have h2 := mult_le_mult_nat r hr (a + kk) K2
                linarith
              · refine hshift _ ?_
                exact hcomp2 te (by simpa using hte2)
            · intro x hx
              rw [List.map_append, List.mem_append] at hx
              rcases hx with h | h
              · rw [hxs1] at h
                have hx2 : x ∈ gridPts r ((a : ℚ) * r) ct := by
                  rw [hgm]; exact h
                exact ⟨ct, by simp,
                  (gridPts_mem' r ((a : ℚ) * r) ct x hx2).2⟩
              · obtain ⟨te, hte, hlt⟩ := hbnd2 x h
                exact ⟨te, by simp at hte ⊢; exact Or.inr hte, hlt⟩
      | cons dt ds2 =>
        have hsd2 := (List.pairwise_cons.mp hsd).2
        by_cases hcd : ct ≤ dt
        · cases hrat : simpleRatio d (c + 1) with
          | error e =>
            simp only [simpleLoop, if_pos hcd, hrat, bind, Except.bind] at hok
            exact Except.noConfusion hok
          | ok ratio =>
            cases hrec : simpleLoop (some r) cs2 (dt :: ds2) (c + 1) d
                (simpleEmit (some r) (min ct dt) ratio lw).2 with
            | error e =>
              simp only [simpleLoop, if_pos hcd, hrat, hrec, bind,
                Except.bind] at hok
              exact Except.noConfusion hok
            | ok rest =>
              simp only [simpleLoop, if_pos hcd, hrat, hrec, bind,
                Except.bind, Except.ok.injEq] at hok
              subst hok
              obtain ⟨kk, hgm, hgl⟩ := gridPts_mults r hr _ a (min ct dt) le_rfl
              rw [hlw] at hrec
              have hlw2 : (simpleEmit (some r) (min ct dt) ratio
                  ((a : ℚ) * r)).2 = ((a + kk : ℕ) : ℚ) * r := by
                simp only [simpleEmit]
                rw [hgl]
              rw [hlw2] at hrec
              have hexit : min ct dt ≤ ((a + kk : ℕ) : ℚ) * r + r := by
                have h1 := gridPts_exit r hr _ ((a : ℚ) * r) (min ct dt) le_rfl
                rw [hgl] at h1
                exact h1
              obtain ⟨K2, hxs2, hcomp2, hbnd2⟩ := ih cs2 (dt :: ds2) (c + 1) d
                _ (a + kk) rest (by simp at hlen ⊢; omega) hsc2 hsd rfl hrec
              have hshift : ∀ te0 : ℚ,
                  te0 ≤ ((a + kk + K2 : ℕ) : ℚ) * r + r →
                  te0 ≤ ((a + (kk + K2) : ℕ) : ℚ) * r + r := by
                intro te0 h1
                rw [show a + (kk + K2) = a + kk + K2 by omega]
                exact h1
              have hxs1 : ((simpleEmit (some r) (min ct dt) ratio lw).1).map
                  Prod.fst = multsFrom r a kk := by
                simp only [simpleEmit]
                rw [List.map_map]
                rw [hlw]
                simpa [Function.comp_def] using hgm
              refine ⟨kk + K2, ?_, ?_, ?_⟩
              · rw [List.map_append, hxs1, hxs2, multsFrom_append]
              · intro te hte
                simp only [List.cons_append, List.mem_cons] at hte
                rcases hte with rfl | hte2
                · refine hshift _ ?_
                  rw [min_eq_left hcd] at hexit
                  have h2 := mult_le_mult_nat r hr (a + kk) K2
                  linarith
                · refine hshift _ ?_
                  exact hcomp2 te (by simpa using hte2)
              · intro x hx
                rw [List.map_append, List.mem_append] at hx
                rcases hx with h | h
                · rw [hxs1] at h
                  have hx2 : x ∈ gridPts r ((a : ℚ) * r) (min ct dt) := by
                    rw [hgm]; exact h
                  refine ⟨ct, by simp, ?_⟩
                  exact lt_of_lt_of_le
                    (gridPts_mem' r ((a : ℚ) * r) (min ct dt) x hx2).2
                    (min_le_left _ _)
                · obtain ⟨te, hte, hlt⟩ := hbnd2 x h
                  refine ⟨te, ?_, hlt⟩
                  simp only [List.cons_append, List.mem_cons] at hte ⊢
                  exact Or.inr hte
        · cases hrat : simpleRatio (d + 1) c with
          | error e =>
            simp only [simpleLoop, if_neg hcd, hrat, bind, Except.bind] at hok
            exact Except.noConfusion hok
          | ok ratio =>
            cases hrec : simpleLoop (some r) (ct :: cs2) ds2 c (d + 1)
                (simpleEmit (some r) (min ct dt) ratio lw).2 with
            | error e =>
              simp only [simpleLoop, if_neg hcd, hrat, hrec, bind,
                Except.bind] at hok
              exact Except.noConfusion hok
            | ok rest =>
              simp only [simpleLoop, if_neg hcd, hrat, hrec, bind,
                Except.bind, Except.ok.injEq] at hok
              subst hok
              obtain ⟨kk, hgm, hgl⟩ := gridPts_mults r hr _ a (min ct dt) le_rfl
              rw [hlw] at hrec
              have hlw2 : (simpleEmit (some r) (min ct dt) ratio
                  ((a : ℚ) * r)).2 = ((a + kk : ℕ) : ℚ) * r := by
                simp only [simpleEmit]
                rw [hgl]
              rw [hlw2] at hrec
              have hexit : min ct dt ≤ ((a + kk : ℕ) : ℚ) * r + r := by
                have h1 := gridPts_exit r hr _ ((a : ℚ) * r) (min ct dt) le_rfl
                rw [hgl] at h1
                exact h1
              obtain ⟨K2, hxs2, hcomp2, hbnd2⟩ := ih (ct :: cs2) ds2 c (d + 1)
                _ (a + kk) rest (by simp at hlen ⊢; omega) hsc hsd2 rfl hrec
              have hshift : ∀ te0 : ℚ,
                  te0 ≤ ((a + kk + K2 : ℕ) : ℚ) * r + r →
                  te0 ≤ ((a + (kk + K2) : ℕ) : ℚ) * r + r := by
                intro te0 h1
                rw [show a + (kk + K2) = a + kk + K2 by omega]
                exact h1
              have hxs1 : ((simpleEmit (some r) (min ct dt) ratio lw).1).map
                  Prod.fst = multsFrom r a kk := by
                simp only [simpleEmit]
                rw [List.map_map]
                rw [hlw]
                simpa [Function.comp_def] using hgm
              refine ⟨kk + K2, ?_, ?_, ?_⟩
              · rw [List.map_append, hxs1, hxs2, multsFrom_append]
              · intro te hte
                have hmem2 : te = dt ∨ te ∈ (ct :: cs2) ++ ds2 := by
                  simp only [List.cons_append, List.mem_cons,
                    List.mem_append] at hte ⊢
                  tauto
                rcases hmem2 with rfl | hte2
                · refine hshift _ ?_
                  rw [min_eq_right (le_of_not_le hcd)] at hexit
                  have h2 := mult_le_mult_nat r hr (a + kk) K2
                  linarith
                · refine hshift _ ?_
                  exact hcomp2 te hte2
              · intro x hx
                rw [List.map_append, List.mem_append] at hx
                rcases hx with h | h
                · rw [hxs1] at h
                  have hx2 : x ∈ gridPts r ((a : ℚ) * r) (min ct dt) := by
                    rw [hgm]; exact h
                  refine ⟨dt, by simp, ?_⟩
                  exact lt_of_lt_of_le
                    (gridPts_mem' r ((a : ℚ) * r) (min ct dt) x hx2).2
                    (min_le_right _ _)
                · obtain ⟨te, hte, hlt⟩ := hbnd2 x h
                  refine ⟨te, ?_, hlt⟩
                  simp only [List.cons_append, List.mem_cons,
                    List.mem_append] at hte ⊢
                  tauto

/-- Unfolding lemma: the grid loop stops when no point fits. -/
theorem gridPts_neg (res lw curT : ℚ) (h : ¬ (0 < res ∧ lw + res < curT)) :
    gridPts res lw curT = [] := by
  rw [gridPts]
  simp [h]

/-- Unfolding lemma: one grid step. -/
theorem gridPts_pos (res lw curT : ℚ) (h : 0 < res ∧ lw + res < curT) :
    gridPts res lw curT = (lw + res) :: gridPts res (lw + res) curT := by
  rw [gridPts]
  simp [h]

/-- C6 counterexample: with `resolution = 60` and events at t=0 and t=60,
the grid point 60 satisfies `last_write + resolution ≤ current_time` (60 ≤
60), yet the loop condition is strict (`<`), so nothing is ever emitted:
the claimed fill of every grid point `≤ current_time` is false. -/
theorem c6_counterexample :
    generate_running_delivery [[tokN "0" 0], [tokN "60" 60]] [] (some 60)
      = .ok [] ∧
    ((0 : ℚ) + 60 ≤ 60) := by
  constructor
  · have hg1 : gridPts 60 0 0 = [] := gridPts_neg _ _ _ (by norm_num)
    have hg2 : gridPts 60 0 60 = [] := gridPts_neg _ _ _ (by norm_num)
    norm_num [generate_running_delivery, simpleLoop, simpleRatio, simpleEmit,
      pyFloat, getTok, tokN, bind, Except.bind, pure, Except.pure,
      List.mapM.loop, hg1, hg2]
  · norm_num

/-- C6 (amended): under resampling with resolution `r > 0`, on
timestamp-sorted logs, in both modes (TTL-aware unconditionally; simple mode
whenever the run completes): the emitted grid abscissas are exactly the
consecutive multiples `r, 2r, …, Kr` (so they increase strictly by exactly
`r`); each emitted abscissa is strictly below some event timestamp (so the
grid never reaches, let alone exceeds, the maximum event timestamp); and
every grid point strictly below the maximum event timestamp is emitted —
the forward-fill covers exactly the grid points `< current_time`, not
`≤ current_time`. -/
theorem c6_amended (r : ℚ) (hr : 0 < r)
    (cs : List CEvent) (ds : List DEvent)
    (hsc : List.Pairwise (fun x y : CEvent => x.t ≤ y.t) cs)
    (hsd : List.Pairwise (fun x y : DEvent => x.t ≤ y.t) ds)
    (csT dsT : List ℚ)
    (hscT : List.Pairwise (fun x y : ℚ => x ≤ y) csT)
    (hsdT : List.Pairwise (fun x y : ℚ => x ≤ y) dsT)
    (out : List (ℚ × ℚ))
    (hok : simpleLoop (some r) csT dsT 0 0 0 = .ok out) :
    (∃ K, (ttlTrace (some r) cs ds).map Emission.x = multsFrom r 0 K) ∧
    (∀ x ∈ (ttlTrace (some r) cs ds).map Emission.x,
      ∃ te ∈ timesOf cs ds, x < te) ∧
    (∀ i : ℕ, ∀ m ∈ timesOf cs ds, (∀ u ∈ timesOf cs ds, u ≤ m) →
      ((i + 1 : ℕ) : ℚ) * r < m →
      ((i + 1 : ℕ) : ℚ) * r ∈ (ttlTrace (some r) cs ds).map Emission.x) ∧
    (∃ K2, out.map Prod.fst = multsFrom r 0 K2) ∧
    (∀ x ∈ out.map Prod.fst, ∃ te ∈ csT ++ dsT, x < te) ∧
    (∀ i : ℕ, ∀ m ∈ csT ++ dsT, (∀ u ∈ csT ++ dsT, u ≤ m) →
      ((i + 1 : ℕ) : ℚ) * r < m →
      ((i + 1 : ℕ) : ℚ) * r ∈ out.map Prod.fst) := by
  unfold ttlTrace
  have hinit : (ttlInit cs ds).lastWrite = ((0 : ℕ) : ℚ) * r := by
    simp [ttlInit]
  obtain ⟨K, hxs, hcomp, hbnd⟩ := ttlLoop_grid r hr
    (cs.length + ds.length) cs ds (ttlInit cs ds) 0 le_rfl hsc hsd hinit
  obtain ⟨K2, hxs2, hcomp2, hbnd2⟩ := simpleLoop_grid r hr
    (csT.length + dsT.length) csT dsT 0 0 0 0 out le_rfl hscT hsdT
    (by norm_num) hok
  have hgen : ∀ (K0 i : ℕ) (m : ℚ), m ≤ ((0 + K0 : ℕ) : ℚ) * r + r →
      ((i + 1 : ℕ) : ℚ) * r < m → i < K0 := by
    intro K0 i m hle hlt
    by_contra hcon
    push_neg at hcon
    have h1 := mult_le_mult_nat r hr (K0 + 1) (i - K0)
    rw [show K0 + 1 + (i - K0) = i + 1 by omega] at h1
    have h2 : ((K0 + 1 : ℕ) : ℚ) * r = ((0 + K0 : ℕ) : ℚ) * r + r := by
      push_cast
      ring
    rw [h2] at h1
    linarith
  refine ⟨⟨K, hxs⟩, hbnd, ?_, ⟨K2, hxs2⟩, hbnd2, ?_⟩
  · intro i m hm hmax hlt
    have hle := hcomp m hm
    have hiK := hgen K i m hle hlt
    rw [hxs]
    have := multsFrom_mem r 0 K i hiK
    simpa using this
  · intro i m hm hmax hlt
    have hle := hcomp2 m hm
    have hiK := hgen K2 i m hle hlt
    rw [hxs2]
    have := multsFrom_mem r 0 K2 i hiK
    simpa using this

/-- C6 amended, applied at concrete inputs. -/
theorem c6_amended_witness :
    simpleLoop (some 60) [(0 : ℚ), 70] [] 0 0 0
        = .ok [((60 : ℚ), (0 : ℚ))] ∧
    ((∃ K, (ttlTrace (some 60) [CEvent.mk 0 "A" 10] []).map Emission.x
        = multsFrom 60 0 K) ∧
      (∀ x ∈ (ttlTrace (some 60) [CEvent.mk 0 "A" 10] []).map Emission.x,
        ∃ te ∈ timesOf [CEvent.mk 0 "A" 10] [], x < te) ∧
      (∀ i : ℕ, ∀ m ∈ timesOf [CEvent.mk 0 "A" 10] [],
        (∀ u ∈ timesOf [CEvent.mk 0 "A" 10] [], u ≤ m) →
        ((i + 1 : ℕ) : ℚ) * 60 < m →
        ((i + 1 : ℕ) : ℚ) * 60
          ∈ (ttlTrace (some 60) [CEvent.mk 0 "A" 10] []).map Emission.x) ∧
      (∃ K2, [((60 : ℚ), (0 : ℚ))].map Prod.fst = multsFrom 60 0 K2) ∧
      (∀ x ∈ [((60 : ℚ), (0 : ℚ))].map Prod.fst,
        ∃ te ∈ [(0 : ℚ), 70] ++ [], x < te) ∧
      (∀ i : ℕ, ∀ m ∈ [(0 : ℚ), 70] ++ [],
        (∀ u ∈ [(0 : ℚ), 70] ++ [], u ≤ m) →
        ((i + 1 : ℕ) : ℚ) * 60 < m →
        ((i + 1 : ℕ) : ℚ) * 60 ∈ [((60 : ℚ), (0 : ℚ))].map Prod.fst)) := by
  have hg1 : gridPts 60 0 0 = [] := gridPts_neg _ _ _ (by norm_num)
  have hg3 : gridPts 60 60 70 = [] := gridPts_neg _ _ _ (by norm_num)
  have hg2 : gridPts 60 0 70 = [(60 : ℚ)] := by
    rw [gridPts_pos _ _ _ (by norm_num)]
    norm_num [hg3]
  have hok : simpleLoop (some 60) [(0 : ℚ), 70] [] 0 0 0
      = .ok [((60 : ℚ), (0 : ℚ))] := by
    norm_num [simpleLoop, simpleRatio, simpleEmit, bind, Except.bind,
      hg1, hg2]
  exact ⟨hok,
    c6_amended 60 (by norm_num) [CEvent.mk 0 "A" 10] []
      (by simp) (by simp) [(0 : ℚ), 70] []
      (by norm_num [List.pairwise_cons]) (by simp)
      [((60 : ℚ), (0 : ℚ))] hok⟩

/-- Fresh zero accumulators are the 0-pass cells of any line. -/
theorem map_cellAfter_zero (row : Row) :
    List.replicate row.length (Sum.inl (0 : ℚ) : Cell)
      = row.map (cellAfter 0) := by
  induction row with
  | nil => rfl
  | cons t ts ih =>
    simp only [List.length_cons, List.replicate_succ, List.map_cons]
    rw [ih]
    congr 1
    unfold cellAfter
    cases t.val <;> simp

/-- One pass of the per-column loop over a line whose accumulator holds the
`j`-pass cells yields the `(j+1)`-pass cells, zeroing `warncount` exactly
when some field fails to parse, with one diagnostic if it was positive. -/
theorem accumCells_iter (j : ℕ) :
    ∀ (row : Row) (w : ℕ),
      accumCells w (row.map (cellAfter j)) row
        = .ok (row.map (cellAfter (j + 1)),
            (if rowBad row then 0 else w),
            (if 0 < w ∧ rowBad row then 1 else 0)) := by
  intro row
  induction row with
  | nil => intro w; simp [accumCells, rowBad]
  | cons t ts ih =>
    intro w
    cases ht : t.val with
    | none =>
      have haf : accumField w (cellAfter j t) t
          = .ok (.inr t.str, 0, if 0 < w then 1 else 0) := by
        unfold accumField
        rw [ht]
      simp only [List.map_cons, accumCells, haf, bind, Except.bind, ih 0,
        Except.ok.injEq]
      have hbad : rowBad (t :: ts) = true := by
        simp [rowBad, ht]
      rw [hbad]
      have h1 : cellAfter (j + 1) t = .inr t.str := by
        unfold cellAfter
        rw [ht]
        simp
      simp [h1]
    | some q =>
      have hca : cellAfter j t = .inl ((j : ℚ) * q) := by
        unfold cellAfter
        rw [ht]
      have haf : accumField w (cellAfter j t) t
          = .ok (.inl ((j : ℚ) * q + q), w, 0) := by
        unfold accumField
        rw [ht, hca]
      simp only [List.map_cons, accumCells, haf, bind, Except.bind, ih w,
        Except.ok.injEq]
      have hbad : rowBad (t :: ts) = rowBad ts := by
        simp [rowBad, ht]
      rw [hbad]
      have h1 : cellAfter (j + 1) t = .inl ((j : ℚ) * q + q) := by
        unfold cellAfter
        rw [ht]
        congr 1
        push_cast
        ring
      simp [h1]


/-- A round over `m` copies of the same file accumulates the head line `m`
times; `active` is untouched, the remainders are the tails. -/
theorem avgRound_replicate (row : Row) (rest : List Row) :
    ∀ (m j act w : ℕ),
      avgRound none (List.replicate m (row :: rest))
          (some (row.map (cellAfter j))) act w
        = .ok ⟨some (row.map (cellAfter (j + m))), act,
            (if 0 < m ∧ rowBad row = true then 0 else w),
            (if 0 < m ∧ 0 < w ∧ rowBad row = true then 1 else 0),
            List.replicate m rest⟩ := by
  intro m
  induction m with
  | zero =>
    intro j act w
    simp [avgRound]
  | succ m ih =>
    intro j act w
    rw [List.replicate_succ]
    have htake : row.take (colsOf none row) = row := by
      show row.take row.length = row
      exact List.take_length row
    have hinit : accInit none (some (row.map (cellAfter j))) row
        = row.map (cellAfter j) := rfl
    simp only [avgRound, htake, hinit, accumCells_iter j row w, bind,
      Except.bind, ih (j + 1), Except.ok.injEq, RoundRes.mk.injEq]
    have hjm : j + 1 + m = j + (m + 1) := by omega
    by_cases hb : rowBad row = true <;> by_cases hw : 0 < w <;>
      simp [hb, hw, hjm, List.replicate_succ] <;>
      try omega

/-- A round over `m` exhausted cursors changes nothing but `active`. -/
theorem avgRound_all_empty (maxcols : Option ℕ) :
    ∀ (m : ℕ) (acc : Option (List Cell)) (act w : ℕ),
      avgRound maxcols (List.replicate m ([] : List Row)) acc act w
        = .ok ⟨acc, act - m, w, 0, List.replicate m []⟩ := by
  intro m
  induction m with
  | zero => intro acc act w; simp [avgRound]
  | succ m ih =>
    intro acc act w
    rw [List.replicate_succ]
    simp only [avgRound, bind, Except.bind, ih, Except.ok.injEq,
      RoundRes.mk.injEq]
    simp [List.replicate_succ]
    omega

/-- The whole averaging loop over `n ≥ 1` identical copies of one file
reproduces the file at parsed-value level, printing one diagnostic exactly
when some field fails to parse (and `warncount` was still positive). -/
theorem avgLoop_replicate (n : ℕ) (hn : 1 ≤ n) :
    ∀ (F : List Row) (w : ℕ),
      avgLoop none (List.replicate n F) w
        = .ok (F.map (fun row => row.map cellOf),
            if 0 < w ∧ anyBad F = true then 1 else 0) := by
  intro F
  induction F with
  | nil =>
    intro w
    have hround := avgRound_all_empty none n none n w
    rw [avgLoop, List.length_replicate, hround]
    simp [anyBad]
  | cons row rest ih =>
    intro w
    have hround : avgRound none (List.replicate n (row :: rest)) none n w
        = .ok ⟨some (row.map (cellAfter n)), n,
            (if rowBad row = true then 0 else w),
            (if 0 < w ∧ rowBad row = true then 1 else 0),
            List.replicate n rest⟩ := by
      cases n with
      | zero => omega
      | succ m =>
        rw [List.replicate_succ]
        have htake : row.take (colsOf none row) = row := by
          show row.take row.length = row
          exact List.take_length row
        have hinit : accInit none none row = row.map (cellAfter 0) := by
          show List.replicate (colsOf none row) (Sum.inl 0) = _
          have hc : colsOf none row = row.length := rfl
          rw [hc]
          exact map_cellAfter_zero row
        have hrep := avgRound_replicate row rest m 1 (m + 1)
          (if rowBad row = true then 0 else w)
        simp only [avgRound, htake, hinit, accumCells_iter 0 row w, bind,
          Except.bind, hrep, Except.ok.injEq, RoundRes.mk.injEq]
        have hidx : 1 + m = m + 1 := by omega
        by_cases hb : rowBad row = true <;> by_cases hw : 0 < w <;>
          simp [hb, hw, hidx, List.replicate_succ] <;>
          try omega
    have hactne : ¬ (n = 0) := by omega
    rw [avgLoop, List.length_replicate, hround]
    have hdiv : (row.map (cellAfter n)).map (fun s => try_divide s n)
        = row.map (fun t => cellOf t) := by
      rw [List.map_map]
      apply List.map_congr_left
      intro t _
      simp only [Function.comp_apply]
      unfold cellAfter try_divide cellOf
      cases ht : t.val with
      | some q =>
        simp only []
        congr 1
        have hne : ((n : ℚ)) ≠ 0 := by
          exact_mod_cast Nat.pos_iff_ne_zero.mp (by omega)
        field_simp
      | none =>
        have : ¬ (n = 0) := by omega
        simp [this]
    simp only [hdiv, ih]
    simp only [dif_neg hactne]
    have hany : anyBad (row :: rest) = (rowBad row || anyBad rest) := by
      simp [anyBad, rowBad]
    by_cases hb : rowBad row = true <;>
      by_cases hr : anyBad rest = true <;>
      by_cases hw : 0 < w <;>
      simp [hb, hr, hw, hany]

/-- C9: for every `n ≥ 1` and every report file `F`, `average_vals` on `n`
identical copies of `F` succeeds and reproduces `F` exactly at parsed-value
level: each numeric field averages back to its own value and each
non-numeric field is passed through as its raw string (with a single
diagnostic if any field fails to parse). -/
theorem c9_self_averaging (n : ℕ) (hn : 1 ≤ n) (F : List Row) :
    average_vals (List.replicate n F) none
      = .ok (F.map (fun row => row.map cellOf),
          if anyBad F = true then 1 else 0) := by
  have h := avgLoop_replicate n hn F 1
  rw [average_vals, h]
  by_cases hb : anyBad F = true <;> simp [hb]

theorem c9_self_averaging_witness :
    average_vals (List.replicate 3 [[tokN "6" 6], [tokN "0" 0, tokN "4" 4]])
        none
      = .ok ([[Sum.inl 6], [Sum.inl 0, Sum.inl 4]], 0) := by
  have h := c9_self_averaging 3 (by norm_num)
    [[tokN "6" 6], [tokN "0" 0, tokN "4" 4]]
  simpa [cellOf, tokN, anyBad] using h

/-- C8 counterexample: with two input files, a numeric field read after a
non-numeric accumulator took over the same column raises an uncaught
`TypeError` -- the run DOES abort, against the claim's
"the run never aborts". -/
theorem c8_counterexample :
    average_vals [[[Tok.mk "x" none]], [[tokN "3" 3]]] none
      = .error .typeErr := by
  rw [average_vals, avgLoop]
  simp [avgRound, accumCells, accumField, accInit, colsOf, tokN, bind,
    Except.bind]

/-- C8 (amended): on a single input file, a field that fails to parse never
aborts the run: its raw value is passed through unmodified, the division by
the active count leaves it unchanged, and exactly one diagnostic is emitted
for the whole run however many such fields occur. -/
theorem c8_amended (F : List Row) (hbad : anyBad F = true) :
    average_vals [F] none
      = .ok (F.map (fun row => row.map cellOf), 1) := by
  have h := avgLoop_replicate 1 (le_refl 1) F 1
  rw [List.replicate_one] at h
  rw [average_vals, h]
  simp [hbad]

theorem c8_amended_witness :
    anyBad [[Tok.mk "x" none, tokN "2" 2], [tokN "5" 5, Tok.mk "y" none]]
        = true ∧
    average_vals [[[Tok.mk "x" none, tokN "2" 2],
        [tokN "5" 5, Tok.mk "y" none]]] none
      = .ok ([[Sum.inr "x", Sum.inl 2], [Sum.inl 5, Sum.inr "y"]], 1) := by
  refine ⟨rfl, ?_⟩
  have h := c8_amended
    [[Tok.mk "x" none, tokN "2" 2], [tokN "5" 5, Tok.mk "y" none]] rfl
  simpa [cellOf, tokN] using h

/-- Accumulating one all-numeric line adds each field to its column cell,
touching neither `warncount` nor the diagnostics. -/
theorem accumCells_num :
    ∀ (row : Row) (g : ℕ → ℚ) (w : ℕ),
      (∀ t ∈ row, t.val.isSome = true) →
      accumCells w ((List.range row.length).map (fun i => Sum.inl (g i))) row
        = .ok (((List.range row.length).map
            (fun i => Sum.inl (g i + tokV row i))), w, 0) := by
  intro row
  induction row with
  | nil => intro g w _; simp [accumCells]
  | cons t ts ih =>
    intro g w hnum
    obtain ⟨q, hq⟩ := Option.isSome_iff_exists.mp (hnum t (by simp))
    have hrec := ih (fun i => g (i + 1)) w (fun u hu => hnum u (by simp [hu]))
    simp only [List.length_cons, List.range_succ_eq_map, List.map_cons,
      List.map_map, Function.comp_def, Nat.succ_eq_add_one] at hrec ⊢
    simp only [accumCells, accumField, hq, bind, Except.bind, hrec]
    simp [tokV, hq]

/-- A round in which every cursor is exhausted only counts the cursors
down from `active`. -/
theorem avgRound_empty_all :
    ∀ (fs : List (List Row)), (∀ f ∈ fs, f = []) →
      ∀ (acc : Option (List Cell)) (act w : ℕ),
      avgRound none fs acc act w = .ok ⟨acc, act - fs.length, w, 0, fs⟩ := by
  intro fs
  induction fs with
  | nil => intro _ acc act w; simp [avgRound]
  | cons f fs ih =>
    intro hall acc act w
    have hf : f = [] := hall f (by simp)
    subst hf
    have hrec := ih (fun u hu => hall u (by simp [hu])) acc (act - 1) w
    simp only [avgRound, hrec, bind, Except.bind, Except.ok.injEq,
      RoundRes.mk.injEq]
    simp
    omega

/-- A numeric round starting from a materialised accumulator: each cursor's
head line is added columnwise, `active` drops by the number of exhausted
cursors, `warn` survives and no diagnostic is printed. -/
theorem avgRound_num (c : ℕ) :
    ∀ (fs : List (List Row)),
      (∀ f ∈ fs, ∀ row ∈ f,
        row.length = c ∧ ∀ t ∈ row, t.val.isSome = true) →
      ∀ (g : ℕ → ℚ) (act w : ℕ),
      avgRound none fs
          (some ((List.range c).map (fun i => Sum.inl (g i)))) act w
        = .ok ⟨some ((List.range c).map
              (fun i => Sum.inl (g i + headSum fs i))),
            act - emptyCount fs, w, 0, fs.map List.tail⟩ := by
  intro fs
  induction fs with
  | nil =>
    intro _ g act w
    simp [avgRound, headSum, emptyCount]
  | cons f fs ih =>
    intro hok g act w
    have hfs : ∀ f ∈ fs, ∀ row ∈ f,
        row.length = c ∧ ∀ t ∈ row, t.val.isSome = true :=
      fun u hu => hok u (by simp [hu])
    match f with
    | [] =>
      have hrec := ih hfs g (act - 1) w
      simp only [avgRound, hrec, bind, Except.bind, Except.ok.injEq,
        RoundRes.mk.injEq]
      simp [headSum, emptyCount]
      omega
    | row :: rest =>
      obtain ⟨hlen, hnum⟩ := hok (row :: rest) (by simp) row (by simp)
      have htake : row.take (colsOf none row) = row := by
        show row.take row.length = row
        exact List.take_length row
      have hacc := accumCells_num row g w hnum
      have hrec := ih hfs (fun i => g i + tokV row i) act w
      rw [hlen] at hacc
      simp only [avgRound, accInit, htake, hacc, bind, Except.bind, hrec,
        Except.ok.injEq, RoundRes.mk.injEq]
      simp [headSum, emptyCount, add_assoc]

/-- A numeric round from the empty accumulator, when at least one cursor
is still live: the accumulator materialises to the columnwise head sums. -/
theorem avgRound_num0 (c : ℕ) :
    ∀ (fs : List (List Row)),
      (∀ f ∈ fs, ∀ row ∈ f,
        row.length = c ∧ ∀ t ∈ row, t.val.isSome = true) →
      (∃ f ∈ fs, f ≠ []) →
      ∀ (act w : ℕ),
      avgRound none fs none act w
        = .ok ⟨some ((List.range c).map (fun i => Sum.inl (headSum fs i))),
            act - emptyCount fs, w, 0, fs.map List.tail⟩ := by
  intro fs
  induction fs with
  | nil =>
    intro _ hex
    obtain ⟨f, hf, _⟩ := hex
    exact absurd hf (by simp)
  | cons f fs ih =>
    intro hok hex act w
    have hfs : ∀ f ∈ fs, ∀ row ∈ f,
        row.length = c ∧ ∀ t ∈ row, t.val.isSome = true :=
      fun u hu => hok u (by simp [hu])
    match f with
    | [] =>
      have hex' : ∃ f ∈ fs, f ≠ [] := by
        obtain ⟨f, hf, hne⟩ := hex
        rcases List.mem_cons.mp hf with h | h
        · exact absurd h hne
        · exact ⟨f, h, hne⟩
      have hrec := ih hfs hex' (act - 1) w
      simp only [avgRound, hrec, bind, Except.bind, Except.ok.injEq,
        RoundRes.mk.injEq]
      simp [headSum, emptyCount]
      omega
    | row :: rest =>
      obtain ⟨hlen, hnum⟩ := hok (row :: rest) (by simp) row (by simp)
      have hinit : accInit none none row
          = List.replicate c (Sum.inl 0) := by
        show List.replicate (colsOf none row) (Sum.inl 0) = _
        show List.replicate row.length (Sum.inl 0) = _
        rw [hlen]
      have htake : row.take (colsOf none row) = row := by
        show row.take row.length = row
        exact List.take_length row
      have hacc : accumCells w
          (List.replicate c (Sum.inl (0 : ℚ) : Cell)) row
          = .ok (((List.range c).map
              (fun i => Sum.inl (tokV row i))), w, 0) := by
        have h := accumCells_num row (fun _ => 0) w hnum
        rw [hlen] at h
        simpa [List.map_const] using h
      have hrec := avgRound_num c fs hfs (fun i => tokV row i) act w
      simp only [avgRound, hinit, htake, hacc, bind, Except.bind, hrec,
        Except.ok.injEq, RoundRes.mk.injEq]
      simp [headSum, emptyCount]

/-- Advancing every cursor by one line lowers the number of rounds left
by one. -/
theorem maxLen_tail (files : List (List Row)) :
    maxLen (files.map List.tail) = maxLen files - 1 := by
  induction files with
  | nil => simp [maxLen]
  | cons f fs ih =>
    simp only [maxLen, List.map_cons, List.foldr_cons] at ih ⊢
    rw [ih, List.length_tail]
    omega

/-- No rounds are left exactly when every cursor is exhausted. -/
theorem maxLen_eq_zero_iff (files : List (List Row)) :
    maxLen files = 0 ↔ ∀ f ∈ files, f = [] := by
  induction files with
  | nil => simp [maxLen]
  | cons f fs ih =>
    simp only [maxLen, List.map_cons, List.foldr_cons] at ih ⊢
    rw [Nat.max_eq_zero_iff]
    simp [ih, List.length_eq_zero]

/-- The cursors active in round 0 are the non-exhausted ones. -/
theorem activeAt_zero_len (files : List (List Row)) :
    (activeAt files 0).length = files.length - emptyCount files := by
  induction files with
  | nil => rfl
  | cons f fs ih =>
    have hle : (List.filter (fun f => f.isEmpty) fs).length ≤ fs.length :=
      List.length_filter_le _ fs
    match f with
    | [] =>
      simp only [activeAt, emptyCount, List.filter_cons] at ih ⊢
      simp at ih ⊢
      omega
    | row :: rest =>
      simp only [activeAt, emptyCount, List.filter_cons] at ih ⊢
      simp at ih ⊢
      omega

/-- The columnwise head sum ranges over exactly the round-0 active
cursors. -/
theorem headSum_eq (files : List (List Row)) (i : ℕ) :
    headSum files i
      = ((activeAt files 0).map (fun f => tokAt f 0 i)).sum := by
  induction files with
  | nil => rfl
  | cons f fs ih =>
    match f with
    | [] =>
      simp only [headSum, activeAt, List.filterMap_cons, List.filter_cons]
        at ih ⊢
      simpa using ih
    | row :: rest =>
      simp only [headSum, activeAt, List.filterMap_cons, List.filter_cons]
        at ih ⊢
      simp only [List.head?_cons, Option.isSome_some] at ih ⊢
      simp [tokAt, tokV] at ih ⊢
      rw [ih]

/-- Round `k+1` of the spec-side average over `files` is round `k` over
the advanced cursors. -/
theorem specAvgRow_succ (files : List (List Row)) (c k : ℕ) :
    specAvgRow files c (k + 1) = specAvgRow (files.map List.tail) c k := by
  unfold specAvgRow
  have hact : activeAt (files.map List.tail) k
      = (activeAt files (k + 1)).map List.tail := by
    unfold activeAt
    rw [List.filter_map]
    congr 1
    apply List.filter_congr
    intro f _
    simp only [Function.comp_apply, List.length_tail]
    rw [decide_eq_decide]
    omega
  rw [hact]
  apply List.map_congr_left
  intro i _
  rw [List.map_map, List.length_map]
  have hsum : (List.map ((fun f => tokAt f k i) ∘ List.tail)
      (activeAt files (k + 1))).sum
      = (List.map (fun f => tokAt f (k + 1) i)
          (activeAt files (k + 1))).sum := by
    apply congrArg List.sum
    apply List.map_congr_left
    intro f hf
    have hlen : k + 1 < f.length := by
      have := List.mem_filter.mp hf
      simpa using this.2
    match f, hlen with
    | a :: l, _ => rfl
  rw [hsum]

/-- Peeling the first round off the spec-side average. -/
theorem specAvgRows_pos (files : List (List Row)) (c : ℕ)
    (h : maxLen files ≠ 0) :
    specAvgRows files c
      = specAvgRow files c 0 :: specAvgRows (files.map List.tail) c := by
  unfold specAvgRows
  rw [maxLen_tail]
  obtain ⟨m, hm⟩ : ∃ m, maxLen files = m + 1 :=
    ⟨maxLen files - 1, by omega⟩
  rw [hm]
  simp only [Nat.add_sub_cancel, List.range_succ_eq_map, List.map_cons,
    List.map_map]
  congr 1
  apply List.map_congr_left
  intro k _
  simp only [Function.comp_apply, Nat.succ_eq_add_one]
  exact specAvgRow_succ files c k

/-- The full averaging loop on uniformly `c`-column, all-numeric report
files computes, for every round, the columnwise mean over the cursors
still active in that round, with no diagnostics. -/
theorem avgLoop_num (c : ℕ) :
    ∀ (N : ℕ) (files : List (List Row)) (w : ℕ),
      maxLen files ≤ N →
      (∀ f ∈ files, ∀ row ∈ f,
        row.length = c ∧ ∀ t ∈ row, t.val.isSome = true) →
      avgLoop none files w = .ok (specAvgRows files c, 0) := by
  intro N
  induction N with
  | zero =>
    intro files w hlen hcols
    have hml : maxLen files = 0 := by omega
    have hall : ∀ f ∈ files, f = [] := (maxLen_eq_zero_iff files).mp hml
    have hround := avgRound_empty_all files hall none files.length w
    rw [avgLoop, hround]
    simp [specAvgRows, hml]
  | succ N ih =>
    intro files w hlen hcols
    by_cases hml : maxLen files = 0
    · have hall : ∀ f ∈ files, f = [] := (maxLen_eq_zero_iff files).mp hml
      have hround := avgRound_empty_all files hall none files.length w
      rw [avgLoop, hround]
      simp [specAvgRows, hml]
    · have hex : ∃ f ∈ files, f ≠ [] := by
        by_contra h
        push_neg at h
        exact hml ((maxLen_eq_zero_iff files).mpr h)
      have hround := avgRound_num0 c files hcols hex files.length w
      have hpos : ¬ (files.length - emptyCount files = 0) := by
        obtain ⟨f, hf, hne⟩ := hex
        have hmem : f ∈ activeAt files 0 :=
          List.mem_filter.mpr ⟨hf, by simpa [List.length_pos] using hne⟩
        have h1 : 0 < (activeAt files 0).length :=
          List.length_pos.mpr (List.ne_nil_of_mem hmem)
        rw [activeAt_zero_len] at h1
        omega
      have hrec := ih (files.map List.tail) w
        (by rw [maxLen_tail]; omega)
        (by
          intro f' hf' row hrow
          obtain ⟨f, hf, rfl⟩ := List.mem_map.mp hf'
          exact hcols f hf row (List.tail_subset f hrow))
      rw [avgLoop, hround]
      simp only [dif_neg hpos, hrec, bind, Except.bind]
      have havg : (List.map (fun s => try_divide s
            (files.length - emptyCount files))
            ((List.range c).map (fun i => Sum.inl (headSum files i))))
          = specAvgRow files c 0 := by
        rw [List.map_map]
        unfold specAvgRow
        apply List.map_congr_left
        intro i _
        simp only [Function.comp_apply, try_divide]
        rw [headSum_eq, activeAt_zero_len]
      rw [specAvgRows_pos files c hml]
      simp [havg]

/-- C10: on report files of possibly unequal lengths (uniformly `c`
columns, all fields numeric), `average_vals` drops a cursor from all
rounds after it reaches end-of-file and divides each column accumulator of
every round by the number of cursors active in that round -- the
spec-side `specAvgRows`, which averages over `activeAt files k` only (not
the total file count, and with no zero-fill for exhausted cursors). -/
theorem c10_active_count_division (files : List (List Row)) (c : ℕ)
    (hcols : ∀ f ∈ files, ∀ row ∈ f,
      row.length = c ∧ ∀ t ∈ row, t.val.isSome = true) :
    average_vals files none = .ok (specAvgRows files c, 0) := by
  rw [average_vals]
  exact avgLoop_num c (maxLen files) files 1 (le_refl _) hcols

theorem c10_active_count_division_witness :
    average_vals [[[tokN "0" 0, tokN "10" 10], [tokN "1" 1, tokN "20" 20]],
        [[tokN "0" 0, tokN "30" 30]]] none
      = .ok ([[Sum.inl 0, Sum.inl 20], [Sum.inl 1, Sum.inl 20]], 0) := by
  have h := c10_active_count_division
    [[[tokN "0" 0, tokN "10" 10], [tokN "1" 1, tokN "20" 20]],
     [[tokN "0" 0, tokN "30" 30]]] 2 (by
      intro f hf row hrow
      refine ⟨?_, ?_⟩ <;>
        · fin_cases hf <;> fin_cases hrow <;> simp [tokN])
  rw [h]
  norm_num [specAvgRows, specAvgRow, maxLen, activeAt, tokAt, tokN, tokV,
    List.range_succ]

/-- Unfolding one binding of an association-list lookup. -/
theorem alistGet?_cons {α β : Type} [DecidableEq α] (a : α × β)
    (d : List (α × β)) (p : α) :
    alistGet? (a :: d) p
      = if a.1 = p then some a.2 else alistGet? d p := by
  by_cases h : a.1 = p <;> simp [alistGet?, List.find?_cons, h]

/-- Looking up an untouched key commutes with the in-place replacement of
another key's value. -/
theorem alistGet?_replace_ne {α β : Type} [DecidableEq α] (k p : α) (v : β)
    (h : p ≠ k) :
    ∀ d : List (α × β),
      alistGet? (d.map (fun q => if q.1 = k then (k, v) else q)) p
        = alistGet? d p := by
  intro d
  induction d with
  | nil => rfl
  | cons a d ih =>
    rw [List.map_cons, alistGet?_cons, alistGet?_cons]
    by_cases hk : a.1 = k
    · simp only [if_pos hk]
      have h1 : ¬ ((k, v).1 = p) := fun e => h e.symm
      have h2 : ¬ (a.1 = p) := fun e => h (e ▸ hk)
      rw [if_neg h1, if_neg h2]
      exact ih
    · simp only [if_neg hk]
      by_cases hp : a.1 = p
      · rw [if_pos hp, if_pos hp]
      · rw [if_neg hp, if_neg hp]
        exact ih

/-- Replacing a present key's value makes lookup return the new value. -/
theorem alistGet?_replace_self {α β : Type} [DecidableEq α] (k : α) (v : β) :
    ∀ d : List (α × β),
      (alistGet? d k).isSome →
      alistGet? (d.map (fun q => if q.1 = k then (k, v) else q)) k
        = some v := by
  intro d
  induction d with
  | nil => intro h; simp [alistGet?] at h
  | cons a d ih =>
    intro hsome
    rw [List.map_cons, alistGet?_cons]
    by_cases hk : a.1 = k
    · simp [if_pos hk]
    · simp only [if_neg hk]
      apply ih
      rwa [alistGet?_cons, if_neg hk] at hsome

/-- `d[k] = v` then `d[k]` gives `v`. -/
theorem alistGet?_set_self {α β : Type} [DecidableEq α]
    (d : List (α × β)) (k : α) (v : β) :
    alistGet? (alistSet d k v) k = some v := by
  unfold alistSet
  by_cases hs : (alistGet? d k).isSome
  · rw [if_pos hs]
    exact alistGet?_replace_self k v d hs
  · rw [if_neg hs]
    have hn : d.find? (fun p => decide (p.1 = k)) = none := by
      rcases hf : d.find? (fun p => decide (p.1 = k)) with _ | q
      · exact hf
      · exact absurd (by simp [alistGet?, hf]) hs
    simp [alistGet?, List.find?_append, hn]

/-- `d[k] = v` leaves every other key's binding untouched. -/
theorem alistGet?_set_ne {α β : Type} [DecidableEq α]
    (d : List (α × β)) (k p : α) (v : β) (h : p ≠ k) :
    alistGet? (alistSet d k v) p = alistGet? d p := by
  unfold alistSet
  by_cases hs : (alistGet? d k).isSome
  · rw [if_pos hs]
    exact alistGet?_replace_ne k p v h d
  · rw [if_neg hs]
    have hne : ¬ (k = p) := fun e => h e.symm
    simp [alistGet?, List.find?_append, hne]

/-- The key list after `d[k] = v`: unchanged if `k` was present, else `k`
is appended. -/
theorem alistSet_keys {α β : Type} [DecidableEq α]
    (d : List (α × β)) (k : α) (v : β) :
    (alistSet d k v).map Prod.fst
      = if (alistGet? d k).isSome then d.map Prod.fst
        else d.map Prod.fst ++ [k] := by
  unfold alistSet
  by_cases hs : (alistGet? d k).isSome
  · rw [if_pos hs, if_pos hs, List.map_map]
    apply List.map_congr_left
    intro q _
    by_cases hq : q.1 = k <;> simp [hq]
  · rw [if_neg hs, if_neg hs]
    simp

/-- A key is absent from an association list iff its lookup yields
nothing. -/
theorem alistGet?_eq_none_iff {α β : Type} [DecidableEq α]
    (d : List (α × β)) (p : α) :
    alistGet? d p = none ↔ p ∉ d.map Prod.fst := by
  simp only [alistGet?, Option.map_eq_none', List.find?_eq_none,
    List.mem_map]
  constructor
  · rintro h ⟨q, hq, rfl⟩
    exact absurd (by simp : decide (q.1 = q.1) = true) (by simpa using h q hq)
  · intro h q hq
    simp only [decide_eq_true_eq]
    exact fun e => h ⟨q, hq, e⟩

/-- A key is present in an association list iff its lookup succeeds. -/
theorem alistGet?_isSome_iff {α β : Type} [DecidableEq α]
    (d : List (α × β)) (p : α) :
    (alistGet? d p).isSome = true ↔ p ∈ d.map Prod.fst := by
  constructor
  · intro h
    by_contra hmem
    rw [← alistGet?_eq_none_iff d p] at hmem
    rw [hmem] at h
    simp at h
  · intro h
    rcases hg : alistGet? d p with _ | v
    · exact absurd h ((alistGet?_eq_none_iff d p).mp hg)
    · rfl

/-- `d[k] = v` preserves key uniqueness. -/
theorem alistSet_nodup {α β : Type} [DecidableEq α]
    (d : List (α × β)) (k : α) (v : β)
    (h : (d.map Prod.fst).Nodup) :
    ((alistSet d k v).map Prod.fst).Nodup := by
  rw [alistSet_keys]
  by_cases hs : (alistGet? d k).isSome
  · rwa [if_pos hs]
  · rw [if_neg hs]
    have hk : k ∉ d.map Prod.fst := by
      rw [← alistGet?_eq_none_iff d k]
      cases hg : alistGet? d k
      · rfl
      · exact absurd (by simp [hg]) hs
    simp [List.nodup_append, h, hk]

/-- On a key-unique association list, every stored pair is what lookup of
its key returns. -/
theorem alistGet?_of_mem_nodup {α β : Type} [DecidableEq α] :
    ∀ d : List (α × β), (d.map Prod.fst).Nodup →
      ∀ pc ∈ d, alistGet? d pc.1 = some pc.2 := by
  intro d
  induction d with
  | nil => intro _ pc h; simp at h
  | cons a d ih =>
    intro hnd pc hm
    rw [List.map_cons] at hnd
    obtain ⟨ha, hd⟩ := List.nodup_cons.mp hnd
    rcases List.mem_cons.mp hm with rfl | hm'
    · rw [alistGet?_cons, if_pos rfl]
    · rw [alistGet?_cons]
      have hne : ¬ (a.1 = pc.1) := by
        intro e
        exact ha (e ▸ List.mem_map.mpr ⟨pc, hm', rfl⟩)
      rw [if_neg hne]
      exact ih hd pc hm'

/-- `defaultdict`-style increment: the bumped key. -/
theorem alistGet?_bump_self (d : List (GPair × ℕ)) (k : GPair) :
    alistGet? (bump d k) k = some ((alistGet? d k).getD 0 + 1) :=
  alistGet?_set_self d k _

/-- `defaultdict`-style increment: any other key. -/
theorem alistGet?_bump_ne (d : List (GPair × ℕ)) (k p : GPair)
    (h : p ≠ k) :
    alistGet? (bump d k) p = alistGet? d p :=
  alistGet?_set_ne d k p _ h

/-- Folding `defaultdict` increments over a list of pairs counts
occurrences on top of the initial table. -/
theorem bumpFold_get :
    ∀ (qs : List GPair) (d : List (GPair × ℕ)) (p : GPair),
      alistGet? (qs.foldl bump d) p
        = if qs.count p = 0 then alistGet? d p
          else some ((alistGet? d p).getD 0 + qs.count p) := by
  intro qs
  induction qs with
  | nil => intro d p; simp
  | cons k qs ih =>
    intro d p
    rw [List.foldl_cons, ih]
    by_cases hpk : p = k
    · subst hpk
      by_cases h0 : qs.count p = 0 <;>
        simp [h0, List.count_cons, alistGet?_bump_self] <;> omega
    · simp [List.count_cons, hpk, alistGet?_bump_ne d k p hpk]

/-- Folding `defaultdict` increments keeps keys unique. -/
theorem bumpFold_nodup :
    ∀ (qs : List GPair) (d : List (GPair × ℕ)),
      (d.map Prod.fst).Nodup → ((qs.foldl bump d).map Prod.fst).Nodup := by
  intro qs
  induction qs with
  | nil => intro d h; simpa using h
  | cons k qs ih =>
    intro d h
    rw [List.foldl_cons]
    exact ih (bump d k) (alistSet_nodup d k _ h)

/-- Success of an `Except` bind splits into successes of both stages. -/
theorem except_bind_ok {ε α β : Type} (x : Except ε α)
    (f : α → Except ε β) (b : β) :
    (x >>= f) = Except.ok b ↔ ∃ a, x = Except.ok a ∧ f a = Except.ok b := by
  cases x <;> simp [bind, Except.bind]

/-- The per-pair counting fold of `generate_delivery_matrix` equals the
pure `bump`-fold over the row-by-row pair list. -/
theorem countPairs_fold (i j : ℕ) :
    ∀ (rows : List (List String)) (qs : List GPair)
      (d : List (GPair × ℕ)),
      pairsOfRows rows i j = .ok qs →
      rows.foldlM (fun d row => do .ok (bump d (← pairKey row i j))) d
        = .ok (qs.foldl bump d) := by
  intro rows
  induction rows with
  | nil =>
    intro qs d h
    simp only [pairsOfRows, List.mapM_nil, pure, Except.pure,
      Except.ok.injEq] at h
    subst h
    simp [List.foldlM_nil, pure, Except.pure]
  | cons row rest ih =>
    intro qs d h
    simp only [pairsOfRows, List.mapM_cons] at h
    rw [except_bind_ok] at h
    obtain ⟨p, hk, h⟩ := h
    rw [except_bind_ok] at h
    obtain ⟨ps, hr, h⟩ := h
    simp only [pure, Except.pure, Except.ok.injEq] at h
    subst h
    rw [List.foldlM_cons]
    simp only [hk, bind, Except.bind]
    rw [List.foldl_cons]
    exact ih ps (bump d p) hr

/-- C7: whenever `generate_delivery_matrix` produces output, the output
has exactly one row per distinct creation pair (keys unique; a pair is a
key iff it occurs among the creations, so delivery-only pairs are
omitted), rows are sorted ascending by `(source_group, dest_group)`, and
each row's ratio is the pair's delivery count (0 if absent) divided by
its creation count, which is at least 1 -- so no division by zero. -/
theorem c7_matrix (cr dr : List (List String)) (cps dps : List GPair)
    (out : List (GPair × ℚ))
    (hc : pairsOfRows cr 3 4 = .ok cps)
    (hd : pairsOfRows dr 5 6 = .ok dps)
    (hout : generate_delivery_matrix cr dr = .ok out) :
    out.Pairwise pdrLe ∧
    (out.map Prod.fst).Nodup ∧
    (∀ p : GPair, p ∈ out.map Prod.fst ↔ 0 < cps.count p) ∧
    (∀ p r, (p, r) ∈ out →
      0 < cps.count p ∧ r = (dps.count p : ℚ) / (cps.count p : ℚ)) := by
  have hcc : countPairs cr 3 4 = .ok (cps.foldl bump []) :=
    countPairs_fold 3 4 cr cps [] hc
  have hdc : countPairs dr 5 6 = .ok (dps.foldl bump []) :=
    countPairs_fold 5 6 dr dps [] hd
  unfold generate_delivery_matrix at hout
  rw [except_bind_ok] at hout
  obtain ⟨created, hc1, hout⟩ := hout
  rw [except_bind_ok] at hout
  obtain ⟨delivered, hd1, hout⟩ := hout
  rw [hcc] at hc1
  rw [hdc] at hd1
  have hcr : cps.foldl bump [] = created := by injection hc1
  have hdr : dps.foldl bump [] = delivered := by injection hd1
  subst hcr
  subst hdr
  simp only [Except.ok.injEq] at hout
  subst hout
  have hget : ∀ p, alistGet? (cps.foldl bump []) p
      = if cps.count p = 0 then none else some (cps.count p) := by
    intro p
    rw [bumpFold_get]
    by_cases h0 : cps.count p = 0 <;> simp [h0, alistGet?]
  have hgetd : ∀ p, alistGet? (dps.foldl bump []) p
      = if dps.count p = 0 then none else some (dps.count p) := by
    intro p
    rw [bumpFold_get]
    by_cases h0 : dps.count p = 0 <;> simp [h0, alistGet?]
  have hnodupc : ((cps.foldl bump []).map Prod.fst).Nodup :=
    bumpFold_nodup cps [] (by simp)
  have hkeys : ((cps.foldl bump []).map (fun pc =>
      (pc.1, match alistGet? (dps.foldl bump []) pc.1 with
             | some dc => (dc : ℚ) / (pc.2 : ℚ)
             | none => (0 : ℚ)))).map Prod.fst
      = (cps.foldl bump []).map Prod.fst := by
    rw [List.map_map]
    apply List.map_congr_left
    intro pc _
    rfl
  have hperm := List.perm_insertionSort pdrLe ((cps.foldl bump []).map
    (fun pc =>
      (pc.1, match alistGet? (dps.foldl bump []) pc.1 with
             | some dc => (dc : ℚ) / (pc.2 : ℚ)
             | none => (0 : ℚ))))
  have hpermk := hperm.map Prod.fst
  rw [hkeys] at hpermk
  refine ⟨List.sorted_insertionSort pdrLe _, hpermk.nodup_iff.mpr hnodupc,
    ?_, ?_⟩
  · intro p
    rw [hpermk.mem_iff, ← alistGet?_isSome_iff, hget p]
    by_cases h0 : cps.count p = 0
    · simp [h0]
    · simp only [if_neg h0, Option.isSome_some, true_iff]
      omega
  · intro p r hm
    have hm' := hperm.mem_iff.mp hm
    obtain ⟨pc, hpc, heq⟩ := List.mem_map.mp hm'
    have h1 : pc.1 = p := congrArg Prod.fst heq
    have h2 : (match alistGet? (dps.foldl bump []) pc.1 with
        | some dc => (dc : ℚ) / (pc.2 : ℚ)
        | none => (0 : ℚ)) = r := congrArg Prod.snd heq
    have hpcget : alistGet? (cps.foldl bump []) pc.1 = some pc.2 :=
      alistGet?_of_mem_nodup _ hnodupc pc hpc
    rw [hget pc.1] at hpcget
    by_cases h0 : cps.count pc.1 = 0
    · rw [if_pos h0] at hpcget
      exact absurd hpcget (by simp)
    · rw [if_neg h0] at hpcget
      have hc2 : cps.count pc.1 = pc.2 := by
        injection hpcget
      subst h1
      refine ⟨by omega, ?_⟩
      rw [hgetd pc.1] at h2
      by_cases hd0 : dps.count pc.1 = 0
      · rw [if_pos hd0] at h2
        simp only [] at h2
        rw [← h2, hd0]
        simp
      · rw [if_neg hd0] at h2
        simp only [] at h2
        rw [← h2, hc2]

theorem c7_matrix_witness :
    ([(((("a" : String) : HostGrp), (("b" : String) : HostGrp)),
        (1 / 2 : ℚ)),
      (((("c" : String) : HostGrp), (⊥ : HostGrp)), (0 : ℚ))].Pairwise
        pdrLe) ∧
    (([(((("a" : String) : HostGrp), (("b" : String) : HostGrp)),
        (1 / 2 : ℚ)),
      (((("c" : String) : HostGrp), (⊥ : HostGrp)),
        (0 : ℚ))].map Prod.fst).Nodup) ∧
    (∀ p : GPair,
      p ∈ ([(((("a" : String) : HostGrp), (("b" : String) : HostGrp)),
          (1 / 2 : ℚ)),
        (((("c" : String) : HostGrp), (⊥ : HostGrp)),
          (0 : ℚ))].map Prod.fst)
        ↔ 0 < ([((("a" : String) : HostGrp), (("b" : String) : HostGrp)),
            ((("a" : String) : HostGrp), (("b" : String) : HostGrp)),
            ((("c" : String) : HostGrp), (⊥ : HostGrp))] : List GPair).count
              p) ∧
    (∀ p r, (p, r) ∈ [(((("a" : String) : HostGrp),
          (("b" : String) : HostGrp)), (1 / 2 : ℚ)),
        (((("c" : String) : HostGrp), (⊥ : HostGrp)), (0 : ℚ))] →
      0 < ([((("a" : String) : HostGrp), (("b" : String) : HostGrp)),
          ((("a" : String) : HostGrp), (("b" : String) : HostGrp)),
          ((("c" : String) : HostGrp), (⊥ : HostGrp))] : List GPair).count p
      ∧ r = ((([((("a" : String) : HostGrp),
              (("b" : String) : HostGrp))] : List GPair).count p : ℚ))
          / ((([((("a" : String) : HostGrp), (("b" : String) : HostGrp)),
              ((("a" : String) : HostGrp), (("b" : String) : HostGrp)),
              ((("c" : String) : HostGrp),
                (⊥ : HostGrp))] : List GPair).count p : ℚ))) :=
  c7_matrix
    [["m", "m", "m", "a1", "b2"], ["m", "m", "m", "a3", "b4"],
      ["m", "m", "m", "c1", "x"]]
    [["m", "m", "m", "m", "m", "a1", "b2"]]
    [((("a" : String) : HostGrp), (("b" : String) : HostGrp)),
      ((("a" : String) : HostGrp), (("b" : String) : HostGrp)),
      ((("c" : String) : HostGrp), (⊥ : HostGrp))]
    [((("a" : String) : HostGrp), (("b" : String) : HostGrp))]
    [(((("a" : String) : HostGrp), (("b" : String) : HostGrp)),
        (1 / 2 : ℚ)),
      (((("c" : String) : HostGrp), (⊥ : HostGrp)), (0 : ℚ))]
    rfl rfl (by with_unfolding_all rfl)
